import Mathlib

/-!
# apps-lcd: the OpenCV LCD simulator, embedded in Lean

A shallow embedding of `src/main-lcd-opencv.cpp`.

* The only side effect of every `draw`/`hide` method is a sequence of calls
  of `lcd_put_pixel`; a method is therefore embedded as the list of the calls
  it makes, in program order (`PutPixel`), and `lcd_run` replays such a list on
  a canvas.
* C++ `int`/`int32_t` values are embedded as `Int`.  Signed overflow is
  undefined in C++, so the embedding describes the executions in which no
  intermediate value leaves the 32-bit range.
* The canvas is read at the coordinates of the surface, the rectangle described
  by `inSurface`.  Its storage is the row-major buffer of the `cv::Mat`: the
  source performs no bounds check in `lcd_put_pixel`, and a write is embedded by
  the buffer offset it addresses (`cellOffset`), so that a coordinate outside the
  surface can overwrite a cell inside it.
* The unbounded loops (`for(;;)` in `Line::draw`, `while` in `Circle::draw`)
  take a fuel argument counting loop-head visits; `none` means the fuel ran out.
* Arithmetic in unsigned types and conversions between integer types wrap; where
  the source has them (`uint64_t` index arithmetic in the constructor of `Text`,
  the `char` member of `Character`) they are explicit (`toUInt64`, `toInt32`,
  `toChar`).
-/

namespace LcdSim

/-! ## Display surface -/

/-- The constant `LCD_WIDTH`. -/
def LCD_WIDTH : Int := 320

/-- The constant `LCD_HEIGHT`. -/
def LCD_HEIGHT : Int := 240

/-- A `cv::Vec3b`: three `uchar` channels.  OpenCV stores them in the order
blue (`v0`), green (`v1`), red (`v2`). -/
structure Vec3b where
  v0 : Nat
  v1 : Nat
  v2 : Nat
deriving DecidableEq

/-- The global `g_canvas`: `canvas x y` is the cell of the surface at column `x` and
row `y` (the source writes `g_canvas.at<cv::Vec3b>( t_y, t_x )`).  Only the coordinates
inside the surface are cells; the values of the function elsewhere stand for nothing
and are never changed. -/
abbrev Canvas := Int → Int → Vec3b

/-- The coordinates that belong to the `LCD_WIDTH × LCD_HEIGHT` surface. -/
def inSurface (x y : Int) : Prop :=
  0 ≤ x ∧ x < LCD_WIDTH ∧ 0 ≤ y ∧ y < LCD_HEIGHT

instance (x y : Int) : Decidable (inSurface x y) := by
  unfold inSurface; infer_instance

/-- The `cv::Vec3b l_rgb_888` that `lcd_put_pixel` builds from its argument
`t_rgb_565`; the `% 256` is the conversion of each `int` expression to `uchar`. -/
def l_rgb_888 (t_rgb_565 : Nat) : Vec3b :=
  { v0 := ((t_rgb_565 &&& 0x1F) <<< 3) % 256
    v1 := (((t_rgb_565 >>> 5) &&& 0x3F) <<< 2) % 256
    v2 := (((t_rgb_565 >>> 11) &&& 0x1F) <<< 3) % 256 }

/-- The offset, counted in cells from the start of the buffer of `g_canvas`, that
`g_canvas.at<cv::Vec3b>( t_y, t_x )` addresses: the `cv::Mat` of `LCD_HEIGHT` rows and
`LCD_WIDTH` columns is one row-major buffer, and `at` checks no range. -/
def cellOffset (t_x t_y : Int) : Int := t_y * LCD_WIDTH + t_x

/-- The function `lcd_put_pixel`: unconditionally stores the unpacked colour at the
buffer offset of `(t_y, t_x)`.  The cell of the surface that lies at this offset, if
there is one, is overwritten; a store beyond the buffer changes no cell of the surface
(what else it does is undefined and not embedded). -/
def lcd_put_pixel (g_canvas : Canvas) (t_x t_y : Int) (t_rgb_565 : Nat) : Canvas :=
  fun x y =>
    if inSurface x y ∧ cellOffset x y = cellOffset t_x t_y then l_rgb_888 t_rgb_565
    else g_canvas x y

/-- The function `lcd_clear`: every cell becomes black. -/
def lcd_clear (_g_canvas : Canvas) : Canvas :=
  fun _ _ => ⟨0, 0, 0⟩

/-- One call `lcd_put_pixel( t_x, t_y, t_rgb_565 )`. -/
structure PutPixel where
  t_x : Int
  t_y : Int
  t_rgb_565 : Nat
deriving DecidableEq

/-- Replays a sequence of `lcd_put_pixel` calls, first call first. -/
def lcd_run : List PutPixel → Canvas → Canvas
  | [], g_canvas => g_canvas
  | c :: rest, g_canvas => lcd_run rest (lcd_put_pixel g_canvas c.t_x c.t_y c.t_rgb_565)

/-- The coordinate `(x, y)` is the target of some call in the sequence. -/
def written (calls : List PutPixel) (x y : Int) : Prop :=
  ∃ c ∈ calls, c.t_x = x ∧ c.t_y = y

/-! ## Value types -/

/-- The struct `Point2D`. -/
structure Point2D where
  x : Int
  y : Int
deriving DecidableEq

/-- The struct `RGB`; the channels are `uint8_t`, i.e. numbers below 256. -/
structure RGB where
  r : Nat
  g : Nat
  b : Nat
deriving DecidableEq

/-- The library function `abs` on `int`. -/
def c_abs (n : Int) : Int := if n < 0 then -n else n

/-! ## GraphicElement -/

/-- The data members of the class `GraphicElement`. -/
structure GraphicElement where
  fg_color : RGB
  bg_color : RGB
deriving DecidableEq

/-- The method `GraphicElement::swap_fg_bg_color`. -/
def GraphicElement.swap_fg_bg_color (e : GraphicElement) : GraphicElement :=
  let l_tmp := e.fg_color
  { fg_color := e.bg_color, bg_color := l_tmp }

/-- The static method `GraphicElement::convert_RGB888_to_RGB565`. -/
def convert_RGB888_to_RGB565 (t_color : RGB) : Nat :=
  let red := (t_color.r >>> 3) <<< 11
  let green := (t_color.g >>> 2) <<< 6
  let blue := t_color.b >>> 3
  red ||| green ||| blue

/-- The method `GraphicElement::drawPixel`. -/
def GraphicElement.drawPixel (e : GraphicElement) (t_x t_y : Int) : List PutPixel :=
  [⟨t_x, t_y, convert_RGB888_to_RGB565 e.fg_color⟩]

/-! ## Pixel -/

/-- The class `Pixel`. -/
structure Pixel extends GraphicElement where
  pos : Point2D

/-- The method `Pixel::draw`. -/
def Pixel.draw (e : Pixel) : List PutPixel :=
  e.toGraphicElement.drawPixel e.pos.x e.pos.y

/-! ## Circle -/

/-- The class `Circle`. -/
structure Circle extends GraphicElement where
  center : Point2D
  radius : Int

/-- The eight calls in the body of the `while` loop of `Circle::draw`. -/
def Circle.octants (x0 y0 : Int) (fg : Nat) (x y : Int) : List PutPixel :=
  [ ⟨x0 + x, y0 + y, fg⟩, ⟨x0 - x, y0 + y, fg⟩, ⟨x0 + x, y0 - y, fg⟩, ⟨x0 - x, y0 - y, fg⟩,
    ⟨x0 + y, y0 + x, fg⟩, ⟨x0 - y, y0 + x, fg⟩, ⟨x0 + y, y0 - x, fg⟩, ⟨x0 - y, y0 - x, fg⟩ ]

/-- The loop `while(x < y)` of `Circle::draw`, started in the state
`(x, y, f, ddF_x, ddF_y)`. -/
def Circle.loop (x0 y0 : Int) (fg : Nat) :
    Nat → Int → Int → Int → Int → Int → Option (List PutPixel)
  | 0, _, _, _, _, _ => none
  | fuel + 1, x, y, f, ddF_x, ddF_y =>
    if x < y then
      let y1 := if f ≥ 0 then y - 1 else y
      let ddF_y1 := if f ≥ 0 then ddF_y + 2 else ddF_y
      let f1 := if f ≥ 0 then f + ddF_y1 else f
      let x1 := x + 1
      let ddF_x1 := ddF_x + 2
      let f2 := f1 + (ddF_x1 + 1)
      (Circle.loop x0 y0 fg fuel x1 y1 f2 ddF_x1 ddF_y1).map
        (fun rest => Circle.octants x0 y0 fg x1 y1 ++ rest)
    else some []

/-- The method `Circle::draw`. -/
def Circle.draw (fuel : Nat) (e : Circle) : Option (List PutPixel) :=
  let radius := e.radius
  let f := 1 - radius
  let ddF_x := 0
  let ddF_y := -2 * radius
  let x := 0
  let y := radius
  let x0 := e.center.x
  let y0 := e.center.y
  let fg := convert_RGB888_to_RGB565 e.fg_color
  let axis : List PutPixel :=
    [⟨x0, y0 + radius, fg⟩, ⟨x0, y0 - radius, fg⟩, ⟨x0 + radius, y0, fg⟩, ⟨x0 - radius, y0, fg⟩]
  (Circle.loop x0 y0 fg fuel x y f ddF_x ddF_y).map (fun rest => axis ++ rest)

/-! ## Character -/

/-- The table type `Font` (`type Font[256][height]`): `font c i` is row `i` of
the entry with index `c`.  The index is the promoted `char`, hence an `Int`; the
table proper has the indices `0..255`, and the source checks no index. -/
abbrev Font := Int → Nat → Nat

/-- The class template `Character<type, width, height>`; the template parameters are
fields here: `type_bits` is the number of bits of the unsigned integer type `type`
(8 for `uint8_t`, 32 for `uint32_t`), `width` and `height` are the glyph size. -/
structure Character extends GraphicElement where
  type_bits : Nat
  width : Nat
  height : Nat
  font : Font
  pos : Point2D
  character : Int

/-- The element `(*font)[character][i]` as `Character::draw` reads it: a value of the
unsigned type `type`, hence below `2 ^ type_bits`. -/
def Character.row (e : Character) (i : Nat) : Nat :=
  e.font e.character i % 2 ^ e.type_bits

/-- The bits that the operand `1 << j` contributes to `(*font)[character][i] & 1 << j`.
The shift is computed in the 32-bit `int`: it is `2^j` for `j < 31` and `INT_MIN` for
`j = 31`.  Against a `type` of at most 32 bits `INT_MIN` is bit 31 alone; against a wider
`type` it is converted with sign extension and covers the bits 31 and above.  For
`j ≥ 32` the shift is undefined in the source; the embedding keeps `1 <<< j` there. -/
def Character.mask (type_bits j : Nat) : Nat :=
  if j < 31 then 1 <<< j
  else if j = 31 then (if type_bits ≤ 32 then 2 ^ 31 else 2 ^ type_bits - 2 ^ 31)
  else 1 <<< j

/-- The method `Character::draw`: the two nested `for` loops over the rows
`i` and the columns `j`. -/
def Character.draw (e : Character) : List PutPixel :=
  let x := e.pos.x
  let y := e.pos.y
  let color := convert_RGB888_to_RGB565 e.fg_color
  (List.range e.height).flatMap fun i =>
    (List.range e.width).flatMap fun j =>
      if e.row i &&& Character.mask e.type_bits j ≠ 0 then [⟨x + j, y + i, color⟩] else []

/-! ## Line -/

/-- The class `Line`. -/
structure Line extends GraphicElement where
  pos1 : Point2D
  pos2 : Point2D

/-- The loop `for(;;)` of `Line::draw`, started in the state `(x0, y0, err)`. -/
def Line.loop (x1 y1 dx sx dy sy : Int) (fg : Nat) :
    Nat → Int → Int → Int → Option (List PutPixel)
  | 0, _, _, _ => none
  | fuel + 1, x0, y0, err =>
    if x0 = x1 ∧ y0 = y1 then some [⟨x0, y0, fg⟩]
    else
      let e2 := 2 * err
      let err1 := if e2 ≥ dy then err + dy else err
      let x0' := if e2 ≥ dy then x0 + sx else x0
      let err2 := if e2 ≤ dx then err1 + dx else err1
      let y0' := if e2 ≤ dx then y0 + sy else y0
      (Line.loop x1 y1 dx sx dy sy fg fuel x0' y0' err2).map
        (fun rest => ⟨x0, y0, fg⟩ :: rest)

/-- The method `Line::draw`. -/
def Line.draw (fuel : Nat) (e : Line) : Option (List PutPixel) :=
  let x0 := e.pos1.x
  let x1 := e.pos2.x
  let y0 := e.pos1.y
  let y1 := e.pos2.y
  let fg := convert_RGB888_to_RGB565 e.fg_color
  let dx := c_abs (x1 - x0)
  let sx : Int := if x0 < x1 then 1 else -1
  let dy := -c_abs (y1 - y0)
  let sy : Int := if y0 < y1 then 1 else -1
  let err := dx + dy
  Line.loop x1 y1 dx sx dy sy fg fuel x0 y0 err

/-! ## Virtual dispatch -/

/-- The drawable classes that inherit the default `GraphicElement::hide`. -/
inductive Element where
  | pixel (e : Pixel)
  | line (e : Line)
  | circle (e : Circle)
  | character (e : Character)

/-- The base-class part of an element. -/
def Element.toGraphicElement : Element → GraphicElement
  | .pixel e => e.toGraphicElement
  | .line e => e.toGraphicElement
  | .circle e => e.toGraphicElement
  | .character e => e.toGraphicElement

/-- The method `swap_fg_bg_color` called on an element. -/
def Element.swap_fg_bg_color : Element → Element
  | .pixel e => .pixel { e with toGraphicElement := e.toGraphicElement.swap_fg_bg_color }
  | .line e => .line { e with toGraphicElement := e.toGraphicElement.swap_fg_bg_color }
  | .circle e => .circle { e with toGraphicElement := e.toGraphicElement.swap_fg_bg_color }
  | .character e => .character { e with toGraphicElement := e.toGraphicElement.swap_fg_bg_color }

/-- The virtual method `draw`. -/
def Element.draw (fuel : Nat) : Element → Option (List PutPixel)
  | .pixel e => some e.draw
  | .line e => e.draw fuel
  | .circle e => e.draw fuel
  | .character e => some e.draw

/-- The method `GraphicElement::hide`: swap the colours, draw, swap back.
Returns the calls made and the element as it is left. -/
def Element.hide (fuel : Nat) (e : Element) : Option (List PutPixel) × Element :=
  let e1 := e.swap_fg_bg_color
  let calls := e1.draw fuel
  let e2 := e1.swap_fg_bg_color
  (calls, e2)

/-! ## Notions used to state the properties -/

/-- Two consecutive calls address distinct, 8-neighbouring coordinates. -/
def adjacent (a b : PutPixel) : Prop :=
  (a.t_x ≠ b.t_x ∨ a.t_y ≠ b.t_y) ∧ c_abs (b.t_x - a.t_x) ≤ 1 ∧ c_abs (b.t_y - a.t_y) ≤ 1

/-- The calls form a path of `len` calls from `(xa, ya)` to `(xb, yb)` in the colour `fg`. -/
def IsPath (fg : Nat) (xa ya xb yb : Int) (len : Nat) (tr : List PutPixel) : Prop :=
  tr.length = len ∧ tr.head? = some ⟨xa, ya, fg⟩ ∧ tr.getLast? = some ⟨xb, yb, fg⟩ ∧
    List.Chain' adjacent tr

/-- The number of loop iterations of `Line::draw` after the first one. -/
def Line.steps (e : Line) : Nat :=
  (max (c_abs (e.pos2.x - e.pos1.x)) (c_abs (e.pos2.y - e.pos1.y))).toNat

/-- The written coordinates are closed under the three reflections through `(x0, y0)`. -/
def SymClosed (x0 y0 : Int) (tr : List PutPixel) : Prop :=
  ∀ dx dy : Int, written tr (x0 + dx) (y0 + dy) →
    written tr (x0 + dx) (y0 - dy) ∧ written tr (x0 - dx) (y0 + dy) ∧
      written tr (x0 + dy) (y0 + dx)

/-- The call with its colour argument replaced. -/
def PutPixel.recolor (k : Nat) (c : PutPixel) : PutPixel :=
  { c with t_rgb_565 := k }

/-- The cell value that represents an `RGB` colour exactly (OpenCV order). -/
def RGB.toVec3b (c : RGB) : Vec3b := ⟨c.b, c.g, c.r⟩

/-- The line drawn by `main`. -/
def main_line : Line := ⟨⟨⟨0, 255, 255⟩, ⟨0, 255, 0⟩⟩, ⟨200, 150⟩, ⟨300, 80⟩⟩

/-- A small circle on the surface, in the colours of the circle drawn by `main`. -/
def small_circle : Circle := ⟨⟨⟨255, 0, 0⟩, ⟨0, 255, 0⟩⟩, ⟨100, 100⟩, 3⟩

/-- The canvas whose cells all hold the given value. -/
def uniform (v : Vec3b) : Canvas := fun _ _ => v

/-- A fuel that lets `draw` run to completion. -/
def Element.fuelBound : Element → Nat
  | .pixel _ => 0
  | .line e => e.steps + 1
  | .circle e => e.radius.toNat + 1
  | .character _ => 0

/-! ## Further classes and notions -/

/-- The four calls that `Circle::draw` makes before its loop. -/
def Circle.axis (x0 y0 radius : Int) (fg : Nat) : List PutPixel :=
  [⟨x0, y0 + radius, fg⟩, ⟨x0, y0 - radius, fg⟩, ⟨x0 + radius, y0, fg⟩, ⟨x0 - radius, y0, fg⟩]

/-- The call lies within `r` of the circle of radius `r` around `(x0, y0)`, measured by
the implicit equation: `|dx*dx + dy*dy - r*r| ≤ r` for the offsets `(dx, dy)`. -/
def nearCircle (x0 y0 r : Int) (c : PutPixel) : Prop :=
  c_abs ((c.t_x - x0) * (c.t_x - x0) + (c.t_y - y0) * (c.t_y - y0) - r * r) ≤ r

/-- The coordinate `(x, y)` lies within half a pixel of the ideal segment of the line,
measured along the minor axis. -/
def Line.nearIdeal (e : Line) (x y : Int) : Prop :=
  2 * c_abs ((e.pos2.x - e.pos1.x) * (y - e.pos1.y) - (e.pos2.y - e.pos1.y) * (x - e.pos1.x))
    ≤ max (c_abs (e.pos2.x - e.pos1.x)) (c_abs (e.pos2.y - e.pos1.y))

/-- The coordinate `(x, y)` lies in the bounding rectangle of the end points of the line. -/
def Line.inBox (e : Line) (x y : Int) : Prop :=
  min e.pos1.x e.pos2.x ≤ x ∧ x ≤ max e.pos1.x e.pos2.x ∧
    min e.pos1.y e.pos2.y ≤ y ∧ y ≤ max e.pos1.y e.pos2.y

instance (calls : List PutPixel) (x y : Int) : Decidable (written calls x y) := by
  unfold written; infer_instance

/-- The line with its end points exchanged: `Line(p1, p0)` for `Line(p0, p1)`. -/
def Line.reversed (e : Line) : Line :=
  { e with pos1 := e.pos2, pos2 := e.pos1 }

/-- The coordinate `(x, y)` lies exactly half a pixel from the ideal segment of the line,
measured along the minor axis (a tie between two neighbouring pixels). -/
def Line.halfway (e : Line) (x y : Int) : Prop :=
  0 < max (c_abs (e.pos2.x - e.pos1.x)) (c_abs (e.pos2.y - e.pos1.y)) ∧
  2 * c_abs ((e.pos2.x - e.pos1.x) * (y - e.pos1.y) - (e.pos2.y - e.pos1.y) * (x - e.pos1.x))
    = max (c_abs (e.pos2.x - e.pos1.x)) (c_abs (e.pos2.y - e.pos1.y))

/-- A line with an odd major extent, on which no coordinate is half-way. -/
def odd_line : Line := ⟨⟨⟨0, 255, 255⟩, ⟨0, 255, 0⟩⟩, ⟨0, 0⟩, ⟨3, 1⟩⟩

/-- The conversion of an integer value to `int32_t`: reduction modulo `2^32` into the
signed range. -/
def toInt32 (n : Int) : Int := (n + 2147483648) % 4294967296 - 2147483648

/-- The conversion of an integer value to `uint64_t`: reduction modulo `2^64`. -/
def toUInt64 (n : Int) : Int := n % 18446744073709551616

/-- The conversion of a character code to `char`, a signed 8-bit type on the x86
targets of the simulator: reduction modulo `2^8` into the range `-128..127`. -/
def toChar (code : Int) : Int := (code + 128) % 256 - 128

/-- The default constructor `Character()`.  It leaves the member `font` uninitialised;
`font0` stands for that indeterminate value. -/
def Character.ctor0 (type_bits width height : Nat) (font0 : Font) : Character :=
  { fg_color := ⟨255, 255, 255⟩, bg_color := ⟨0, 0, 0⟩,
    type_bits := type_bits, width := width, height := height,
    font := font0, pos := ⟨0, 0⟩, character := 32 }

/-- The constructor `Character( t_pos, t_char, t_fg, t_bg )`.  It leaves the member
`font` uninitialised; `font0` stands for that indeterminate value. -/
def Character.ctor (type_bits width height : Nat) (font0 : Font) (t_pos : Point2D)
    (t_char : Int) (t_fg t_bg : RGB) : Character :=
  { fg_color := t_fg, bg_color := t_bg,
    type_bits := type_bits, width := width, height := height,
    font := font0, pos := t_pos, character := t_char }

/-- The operator `Character::operator=`: copies `pos`, `font` and `character`. -/
def Character.assign (self orig : Character) : Character :=
  { self with pos := orig.pos, font := orig.font, character := orig.character }

/-- The method `Character::setFont`. -/
def Character.setFont (e : Character) (f : Font) : Character :=
  { e with font := f }

/-- The first index of the table access `(*font)[character][i]` in `Character::draw`:
the member `character`, promoted from `char` to `int`. -/
def Character.fontIndex (e : Character) : Int := e.character

/-- The method `GraphicElement::hide` called on a `Character`. -/
def Character.hide (e : Character) : List PutPixel × Character :=
  let e1 := { e with toGraphicElement := e.toGraphicElement.swap_fg_bg_color }
  let calls := e1.draw
  let e2 := { e1 with toGraphicElement := e1.toGraphicElement.swap_fg_bg_color }
  (calls, e2)

/-- The class template `Text<type, width, height>`, with the template parameters as
fields as in `Character`.  The array `chars` and its length `len` are one list; `font`
is `none` for `nullptr`. -/
structure Text extends GraphicElement where
  type_bits : Nat
  width : Nat
  height : Nat
  chars : List Character
  font : Option Font
  pos : Point2D

/-- The member `len` of `Text`. -/
def Text.len (t : Text) : Nat := t.chars.length

/-- The loop of the constructor of `Text`, at index `i` with the characters from `str[i]`
on still to come: `chars[i] = Char(Point2D(pos.x + i*width, pos.y), str[i], fg_color,
bg_color)` on the default-constructed `chars[i]`.  The sum `pos.x + i*width` is computed
in `uint64_t` and converted to `int32_t`. -/
def Text.initChars (type_bits width height : Nat) (font0 : Font) (pos : Point2D)
    (fg_color bg_color : RGB) : Nat → List Int → List Character
  | _, [] => []
  | i, ch :: rest =>
    (Character.ctor0 type_bits width height font0).assign
        (Character.ctor type_bits width height font0
          ⟨toInt32 (toUInt64 (toUInt64 pos.x + toUInt64 ((i : Int) * (width : Int)))), pos.y⟩
          ch fg_color bg_color)
      :: Text.initChars type_bits width height font0 pos fg_color bg_color (i + 1) rest

/-- The constructor `Text( str, pos, foreground, background )`; `str` is the sequence of
the `char` values before the terminating zero, so that `strlen(str)` is its length. -/
def Text.ctor (type_bits width height : Nat) (font0 : Font) (str : List Int) (pos : Point2D)
    (foreground background : RGB) : Text :=
  { fg_color := foreground, bg_color := background,
    type_bits := type_bits, width := width, height := height,
    chars := Text.initChars type_bits width height font0 pos foreground background 0 str,
    font := none, pos := pos }

/-- The method `Text::draw`. -/
def Text.draw (t : Text) : List PutPixel :=
  t.chars.flatMap fun c => c.draw

/-- The method `Text::hide`: the calls made, and the text as it is left. -/
def Text.hide (t : Text) : List PutPixel × Text :=
  (t.chars.flatMap fun c => c.hide.1, { t with chars := t.chars.map fun c => c.hide.2 })

/-- The method `Text::setFont`. -/
def Text.setFont (t : Text) (f : Font) : Text :=
  { t with font := some f, chars := t.chars.map fun c => c.setFont f }

/-- A font whose table entries `0..255` are blank and that reads as set bits everywhere
outside the table. -/
def blank_table_font : Font := fun c _ => if 0 ≤ c ∧ c < 256 then 0 else 0xFF

theorem IsPath.single (fg : Nat) (x y : Int) : IsPath fg x y x y 1 [⟨x, y, fg⟩] := by
  simp [IsPath]

theorem IsPath.cons {fg : Nat} {x y x' y' xb yb : Int} {len : Nat} {tr : List PutPixel}
    (h : IsPath fg x' y' xb yb len tr) (hadj : adjacent ⟨x, y, fg⟩ ⟨x', y', fg⟩) :
    IsPath fg x y xb yb (len + 1) (⟨x, y, fg⟩ :: tr) := by
  obtain ⟨hlen, hhead, hlast, hchain⟩ := h
  cases tr with
  | nil => simp at hhead
  | cons c rest =>
    simp only [List.head?_cons, Option.some.injEq] at hhead
    subst hhead
    refine ⟨by simp [hlen], by simp, ?_, ?_⟩
    · rw [List.getLast?_cons_cons]; exact hlast
    · exact List.Chain'.cons hadj hchain

theorem Line.loop_xmajor (x1 y1 dx sx dy sy : Int) (fg : Nat)
    (hsx : sx = 1 ∨ sx = -1) (hsy : sy = 1 ∨ sy = -1)
    (hdy : dy ≤ 0) (hmaj : -dy ≤ dx) (hdx : 0 < dx) :
    ∀ (n fuel : Nat) (x y err m : Int),
      x1 = x + sx * n → y1 = y + sy * m →
      err = dx * (1 - m) + (-dy) * (n - 1) →
      dx + 2 * dy ≤ 2 * err → 2 * err ≤ 3 * dx + 2 * dy →
      n + 1 ≤ fuel →
      ∃ tr, Line.loop x1 y1 dx sx dy sy fg fuel x y err = some tr ∧
        IsPath fg x y x1 y1 (n + 1) tr := by
  intro n
  induction n with
  | zero =>
    intro fuel x y err m hx hy herr hlo hhi hfuel
    obtain ⟨k, rfl⟩ : ∃ k, fuel = k + 1 := ⟨fuel - 1, by omega⟩
    have hm : m = 0 := by
      simp only [Nat.cast_zero] at herr
      rcases lt_trichotomy m 0 with h | h | h
      · nlinarith
      · exact h
      · nlinarith
    subst hm
    have hx' : x = x1 := by simp at hx; omega
    have hy' : y = y1 := by simp at hy; omega
    subst hx' hy'
    refine ⟨[⟨x, y, fg⟩], ?_, IsPath.single fg x y⟩
    simp [Line.loop]
  | succ n ih =>
    intro fuel x y err m hx hy herr hlo hhi hfuel
    obtain ⟨k, rfl⟩ : ∃ k, fuel = k + 1 := ⟨fuel - 1, by omega⟩
    push_cast at hx herr
    have hne : ¬ (x = x1 ∧ y = y1) := by
      rintro ⟨h, -⟩
      rcases hsx with h1 | h1 <;> subst h1 <;> omega
    have hA : 2 * err ≥ dy := by omega
    simp only [Line.loop, if_neg hne, if_pos hA]
    by_cases hB : 2 * err ≤ dx
    · simp only [if_pos hB]
      obtain ⟨tr, htr, hp⟩ := ih k (x + sx) (y + sy) (err + dy + dx) (m - 1)
        (by rw [hx]; ring) (by rw [hy]; ring) (by rw [herr]; ring) (by omega) (by omega) (by omega)
      refine ⟨_, by rw [htr]; rfl, hp.cons ?_⟩
      refine ⟨Or.inl ?_, ?_, ?_⟩ <;> simp only [c_abs]
      · rcases hsx with h1 | h1 <;> subst h1 <;> omega
      · rcases hsx with h1 | h1 <;> subst h1 <;> simp
      · rcases hsy with h1 | h1 <;> subst h1 <;> simp
    · simp only [if_neg hB]
      obtain ⟨tr, htr, hp⟩ := ih k (x + sx) y (err + dy) m
        (by rw [hx]; ring) hy (by rw [herr]; ring) (by omega) (by omega) (by omega)
      refine ⟨_, by rw [htr]; rfl, hp.cons ?_⟩
      refine ⟨Or.inl ?_, ?_, ?_⟩ <;> simp only [c_abs]
      · rcases hsx with h1 | h1 <;> subst h1 <;> omega
      · rcases hsx with h1 | h1 <;> subst h1 <;> simp
      · simp

theorem Line.loop_ymajor (x1 y1 dx sx dy sy : Int) (fg : Nat)
    (hsx : sx = 1 ∨ sx = -1) (hsy : sy = 1 ∨ sy = -1)
    (hdx : 0 ≤ dx) (hmaj : dx ≤ -dy) (hdy : dy < 0) :
    ∀ (n fuel : Nat) (x y err m : Int),
      x1 = x + sx * m → y1 = y + sy * n →
      err = dx * (1 - n) + (-dy) * (m - 1) →
      2 * dx + 3 * dy ≤ 2 * err → 2 * err ≤ 2 * dx + dy →
      n + 1 ≤ fuel →
      ∃ tr, Line.loop x1 y1 dx sx dy sy fg fuel x y err = some tr ∧
        IsPath fg x y x1 y1 (n + 1) tr := by
  intro n
  induction n with
  | zero =>
    intro fuel x y err m hx hy herr hlo hhi hfuel
    obtain ⟨k, rfl⟩ : ∃ k, fuel = k + 1 := ⟨fuel - 1, by omega⟩
    have hm : m = 0 := by
      simp only [Nat.cast_zero] at herr
      rcases lt_trichotomy m 0 with h | h | h
      · nlinarith
      · exact h
      · nlinarith
    subst hm
    have hx' : x = x1 := by simp at hx; omega
    have hy' : y = y1 := by simp at hy; omega
    subst hx' hy'
    refine ⟨[⟨x, y, fg⟩], ?_, IsPath.single fg x y⟩
    simp [Line.loop]
  | succ n ih =>
    intro fuel x y err m hx hy herr hlo hhi hfuel
    obtain ⟨k, rfl⟩ : ∃ k, fuel = k + 1 := ⟨fuel - 1, by omega⟩
    push_cast at hy herr
    have hne : ¬ (x = x1 ∧ y = y1) := by
      rintro ⟨-, h⟩
      rcases hsy with h1 | h1 <;> subst h1 <;> omega
    have hB : 2 * err ≤ dx := by omega
    simp only [Line.loop, if_neg hne, if_pos hB]
    by_cases hA : 2 * err ≥ dy
    · simp only [if_pos hA]
      obtain ⟨tr, htr, hp⟩ := ih k (x + sx) (y + sy) (err + dy + dx) (m - 1)
        (by rw [hx]; ring) (by rw [hy]; ring) (by rw [herr]; ring) (by omega) (by omega) (by omega)
      refine ⟨_, by rw [htr]; rfl, hp.cons ?_⟩
      refine ⟨Or.inr ?_, ?_, ?_⟩ <;> simp only [c_abs]
      · rcases hsy with h1 | h1 <;> subst h1 <;> omega
      · rcases hsx with h1 | h1 <;> subst h1 <;> simp
      · rcases hsy with h1 | h1 <;> subst h1 <;> simp
    · simp only [if_neg hA]
      obtain ⟨tr, htr, hp⟩ := ih k x (y + sy) (err + dx) m
        hx (by rw [hy]; ring) (by rw [herr]; ring) (by omega) (by omega) (by omega)
      refine ⟨_, by rw [htr]; rfl, hp.cons ?_⟩
      refine ⟨Or.inr ?_, ?_, ?_⟩ <;> simp only [c_abs]
      · rcases hsy with h1 | h1 <;> subst h1 <;> omega
      · simp
      · rcases hsy with h1 | h1 <;> subst h1 <;> simp

theorem Line.draw_isPath (e : Line) (fuel : Nat) (hfuel : e.steps + 1 ≤ fuel) :
    ∃ tr, e.draw fuel = some tr ∧
      IsPath (convert_RGB888_to_RGB565 e.fg_color) e.pos1.x e.pos1.y e.pos2.x e.pos2.y
        (e.steps + 1) tr := by
  obtain ⟨ge, ⟨xa, ya⟩, ⟨xb, yb⟩⟩ := e
  simp only [Line.steps] at hfuel ⊢
  simp only [Line.draw]
  have hsx : (if xa < xb then (1 : Int) else -1) = 1 ∨ (if xa < xb then (1 : Int) else -1) = -1 := by
    split <;> simp
  have hsy : (if ya < yb then (1 : Int) else -1) = 1 ∨ (if ya < yb then (1 : Int) else -1) = -1 := by
    split <;> simp
  have hdx0 : 0 ≤ c_abs (xb - xa) := by unfold c_abs; split <;> omega
  have hdy0 : 0 ≤ c_abs (yb - ya) := by unfold c_abs; split <;> omega
  have hxb : xb = xa + (if xa < xb then (1 : Int) else -1) * c_abs (xb - xa) := by
    unfold c_abs; split <;> split <;> omega
  have hyb : yb = ya + (if ya < yb then (1 : Int) else -1) * c_abs (yb - ya) := by
    unfold c_abs; split <;> split <;> omega
  generalize hsxd : (if xa < xb then (1 : Int) else -1) = sx at *
  generalize hsyd : (if ya < yb then (1 : Int) else -1) = sy at *
  generalize hdxd : c_abs (xb - xa) = dx at *
  generalize hdyd : c_abs (yb - ya) = ady at *
  by_cases hmaj : ady ≤ dx
  · rw [max_eq_left hmaj] at hfuel ⊢
    by_cases hz : dx = 0
    · have ha : ady = 0 := by omega
      subst hz ha
      have h1 : xa = xb := by rcases hsx with h | h <;> subst h <;> omega
      have h2 : ya = yb := by rcases hsy with h | h <;> subst h <;> omega
      subst h1 h2
      obtain ⟨k, rfl⟩ : ∃ k, fuel = k + 1 := ⟨fuel - 1, by omega⟩
      exact ⟨[⟨xa, ya, _⟩], by simp [Line.loop], IsPath.single _ xa ya⟩
    · exact Line.loop_xmajor xb yb dx sx (-ady) sy _ hsx hsy (by omega) (by omega) (by omega)
        dx.toNat fuel xa ya (dx + -ady) ady
        (by rw [Int.toNat_of_nonneg hdx0]; exact hxb) hyb
        (by rw [Int.toNat_of_nonneg hdx0]; ring) (by omega) (by omega) hfuel
  · have hlt : dx < ady := by omega
    rw [max_eq_right (le_of_lt hlt)] at hfuel ⊢
    exact Line.loop_ymajor xb yb dx sx (-ady) sy _ hsx hsy hdx0 (by omega) (by omega)
      ady.toNat fuel xa ya (dx + -ady) dx hxb
      (by rw [Int.toNat_of_nonneg hdy0]; exact hyb)
      (by rw [Int.toNat_of_nonneg hdy0]; ring) (by omega) (by omega) hfuel

theorem Line.steps_cast (e : Line) :
    (e.steps : Int) = max (c_abs (e.pos2.x - e.pos1.x)) (c_abs (e.pos2.y - e.pos1.y)) := by
  unfold Line.steps
  apply Int.toNat_of_nonneg
  apply le_max_of_le_left
  unfold c_abs; split <;> omega

theorem written_append (l1 l2 : List PutPixel) (x y : Int) :
    written (l1 ++ l2) x y ↔ written l1 x y ∨ written l2 x y := by
  simp only [written, List.mem_append]
  constructor
  · rintro ⟨c, hc | hc, h⟩
    · exact Or.inl ⟨c, hc, h⟩
    · exact Or.inr ⟨c, hc, h⟩
  · rintro (⟨c, hc, h⟩ | ⟨c, hc, h⟩)
    · exact ⟨c, Or.inl hc, h⟩
    · exact ⟨c, Or.inr hc, h⟩

theorem SymClosed.nil (x0 y0 : Int) : SymClosed x0 y0 [] := by
  intro dx dy h
  simp [written] at h

theorem SymClosed.append {x0 y0 : Int} {l1 l2 : List PutPixel}
    (h1 : SymClosed x0 y0 l1) (h2 : SymClosed x0 y0 l2) : SymClosed x0 y0 (l1 ++ l2) := by
  intro dx dy h
  simp only [written_append] at h ⊢
  rcases h with h | h
  · obtain ⟨a, b, c⟩ := h1 dx dy h
    exact ⟨Or.inl a, Or.inl b, Or.inl c⟩
  · obtain ⟨a, b, c⟩ := h2 dx dy h
    exact ⟨Or.inr a, Or.inr b, Or.inr c⟩

theorem written_octants (x0 y0 : Int) (fg : Nat) (x y px py : Int) :
    written (Circle.octants x0 y0 fg x y) px py ↔
      ((px = x0 + x ∨ px = x0 - x) ∧ (py = y0 + y ∨ py = y0 - y)) ∨
      ((px = x0 + y ∨ px = x0 - y) ∧ (py = y0 + x ∨ py = y0 - x)) := by
  simp only [written, Circle.octants, List.mem_cons, List.mem_singleton, List.not_mem_nil,
    or_false, exists_eq_or_imp, exists_eq_left]
  omega

theorem SymClosed.octants (x0 y0 : Int) (fg : Nat) (x y : Int) :
    SymClosed x0 y0 (Circle.octants x0 y0 fg x y) := by
  intro dx dy h
  simp only [written_octants] at h ⊢
  omega

theorem Circle.loop_symClosed (x0 y0 : Int) (fg : Nat) :
    ∀ (fuel : Nat) (x y f ddF_x ddF_y : Int), y - x < fuel → 0 < fuel →
      ∃ tr, Circle.loop x0 y0 fg fuel x y f ddF_x ddF_y = some tr ∧ SymClosed x0 y0 tr := by
  intro fuel
  induction fuel with
  | zero =>
    intro x y f ddF_x ddF_y _ h0
    omega
  | succ k ih =>
    intro x y f ddF_x ddF_y h _
    simp only [Circle.loop]
    by_cases hxy : x < y
    · simp only [if_pos hxy]
      obtain ⟨tr, htr, hs⟩ := ih (x + 1) (if f ≥ 0 then y - 1 else y)
        ((if f ≥ 0 then f + (if f ≥ 0 then ddF_y + 2 else ddF_y) else f) + (ddF_x + 2 + 1))
        (ddF_x + 2) (if f ≥ 0 then ddF_y + 2 else ddF_y) (by split <;> push_cast at h <;> omega) (by push_cast at h; omega)
      exact ⟨_, by rw [htr]; rfl, (SymClosed.octants x0 y0 fg _ _).append hs⟩
    · simp only [if_neg hxy]
      exact ⟨[], rfl, SymClosed.nil x0 y0⟩

theorem Line.loop_recolor (x1 y1 dx sx dy sy : Int) (fg k : Nat) :
    ∀ (fuel : Nat) (x y err : Int),
      Line.loop x1 y1 dx sx dy sy k fuel x y err =
        (Line.loop x1 y1 dx sx dy sy fg fuel x y err).map (List.map (PutPixel.recolor k)) := by
  intro fuel
  induction fuel with
  | zero => intro x y err; rfl
  | succ n ih =>
    intro x y err
    simp only [Line.loop]
    split
    · rfl
    · rw [ih]
      simp only [Option.map_map]
      rfl

theorem Circle.whileLoop_recolor (x0 y0 : Int) (fg k : Nat) :
    ∀ (fuel : Nat) (x y f ddF_x ddF_y : Int),
      Circle.loop x0 y0 k fuel x y f ddF_x ddF_y =
        (Circle.loop x0 y0 fg fuel x y f ddF_x ddF_y).map (List.map (PutPixel.recolor k)) := by
  intro fuel
  induction fuel with
  | zero => intro x y f ddF_x ddF_y; rfl
  | succ n ih =>
    intro x y f ddF_x ddF_y
    simp only [Circle.loop]
    split
    · rw [ih]
      simp only [Option.map_map]
      congr 1
    · rfl

theorem Character.glyph_recolor (e : Character) (ge : GraphicElement) :
    Character.draw { e with toGraphicElement := ge } =
      e.draw.map (PutPixel.recolor (convert_RGB888_to_RGB565 ge.fg_color)) := by
  simp only [Character.draw, Character.row, List.map_flatMap]
  congr 1; funext i; congr 1; funext j
  split <;> simp [PutPixel.recolor]

/-- Drawing with another pair of colours makes the same calls in the new foreground. -/
theorem Element.draw_recolor (e : Element) (fuel : Nat) :
    e.swap_fg_bg_color.draw fuel =
      (e.draw fuel).map
        (List.map (PutPixel.recolor (convert_RGB888_to_RGB565 e.toGraphicElement.bg_color))) := by
  cases e with
  | pixel e => rfl
  | line e =>
    simp only [Element.swap_fg_bg_color, Element.draw, Line.draw, Element.toGraphicElement,
      GraphicElement.swap_fg_bg_color]
    exact Line.loop_recolor _ _ _ _ _ _ _ _ _ _ _ _
  | circle e =>
    simp only [Element.swap_fg_bg_color, Element.draw, Circle.draw, Element.toGraphicElement,
      GraphicElement.swap_fg_bg_color]
    rw [Circle.whileLoop_recolor _ _ (convert_RGB888_to_RGB565 e.fg_color)]
    simp only [Option.map_map]
    congr 1
  | character e =>
    simp only [Element.swap_fg_bg_color, Element.draw, Element.toGraphicElement]
    rw [Character.glyph_recolor]
    rfl

theorem Element.swap_swap (e : Element) : e.swap_fg_bg_color.swap_fg_bg_color = e := by
  cases e <;> rfl


theorem written_map_recolor (k : Nat) (tr : List PutPixel) (x y : Int) :
    written (tr.map (PutPixel.recolor k)) x y ↔ written tr x y := by
  simp only [written, List.mem_map]
  constructor
  · rintro ⟨c, ⟨c', hc', rfl⟩, h⟩
    exact ⟨c', hc', h⟩
  · rintro ⟨c, hc, h⟩
    exact ⟨_, ⟨c, hc, rfl⟩, h⟩

theorem cellOffset_inj {x y t_x t_y : Int} (h : inSurface x y) (ht : inSurface t_x t_y) :
    cellOffset x y = cellOffset t_x t_y ↔ x = t_x ∧ y = t_y := by
  simp only [inSurface, cellOffset, LCD_WIDTH, LCD_HEIGHT] at *
  omega

theorem lcd_put_pixel_in_surface (g : Canvas) (t_x t_y : Int) (k : Nat)
    (ht : inSurface t_x t_y) (x y : Int) :
    lcd_put_pixel g t_x t_y k x y = if x = t_x ∧ y = t_y then l_rgb_888 k else g x y := by
  unfold lcd_put_pixel
  by_cases h : inSurface x y
  · simp only [h, true_and, cellOffset_inj h ht]
  · have hne : ¬ (x = t_x ∧ y = t_y) := by
      rintro ⟨rfl, rfl⟩
      exact h ht
    rw [if_neg (fun hh => h hh.1), if_neg hne]

theorem lcd_run_not_written :
    ∀ (tr : List PutPixel) (g : Canvas) (x y : Int),
      (∀ c ∈ tr, inSurface c.t_x c.t_y) → ¬ written tr x y →
      lcd_run tr g x y = g x y := by
  intro tr
  induction tr with
  | nil => intro g x y _ _; rfl
  | cons d l ih =>
    intro g x y hin hn
    simp only [lcd_run]
    rw [ih _ x y (fun c hc => hin c (List.mem_cons_of_mem _ hc))
      (fun ⟨c', hc', h'⟩ => hn ⟨c', List.mem_cons_of_mem _ hc', h'⟩)]
    have : ¬ (x = d.t_x ∧ y = d.t_y) := fun ⟨h1, h2⟩ =>
      hn ⟨d, List.mem_cons_self _ _, h1.symm, h2.symm⟩
    rw [lcd_put_pixel_in_surface _ _ _ _ (hin d (List.mem_cons_self _ _)), if_neg this]

theorem lcd_run_written (k : Nat) :
    ∀ (tr : List PutPixel) (g : Canvas) (x y : Int),
      (∀ c ∈ tr, inSurface c.t_x c.t_y) → (∀ c ∈ tr, c.t_rgb_565 = k) →
      written tr x y → lcd_run tr g x y = l_rgb_888 k := by
  intro tr
  induction tr with
  | nil => intro g x y _ _ h; simp [written] at h
  | cons c rest ih =>
    intro g x y hin hk h
    simp only [lcd_run]
    have hin' : ∀ c' ∈ rest, inSurface c'.t_x c'.t_y :=
      fun c' hc' => hin c' (List.mem_cons_of_mem _ hc')
    by_cases hr : written rest x y
    · exact ih _ x y hin' (fun c' hc' => hk c' (List.mem_cons_of_mem _ hc')) hr
    · have hc : x = c.t_x ∧ y = c.t_y := by
        obtain ⟨c', hc', hxy⟩ := h
        rcases List.mem_cons.mp hc' with rfl | hmem
        · exact ⟨hxy.1.symm, hxy.2.symm⟩
        · exact absurd ⟨c', hmem, hxy⟩ hr
      rw [lcd_run_not_written rest _ x y hin' hr,
        lcd_put_pixel_in_surface _ _ _ _ (hin c (List.mem_cons_self _ _)), if_pos hc,
        hk c (List.mem_cons_self _ _)]

theorem Circle.draw_symClosed (e : Circle) (fuel : Nat) (hfuel : e.radius.toNat + 1 ≤ fuel) :
    ∃ tr, e.draw fuel = some tr ∧ SymClosed e.center.x e.center.y tr := by
  obtain ⟨rest, hrest, hs⟩ := Circle.loop_symClosed e.center.x e.center.y
    (convert_RGB888_to_RGB565 e.fg_color) fuel 0 e.radius (1 - e.radius) 0 (-2 * e.radius)
    (by omega) (by omega)
  refine ⟨_, by simp only [Circle.draw, hrest]; rfl, SymClosed.append ?_ hs⟩
  intro dx dy h
  simp only [written, List.mem_cons, List.mem_singleton, List.not_mem_nil,
    or_false, exists_eq_or_imp, exists_eq_left] at h ⊢
  omega

theorem Element.draw_total (e : Element) (fuel : Nat) (hfuel : e.fuelBound ≤ fuel) :
    ∃ tr, e.draw fuel = some tr := by
  cases e with
  | pixel e => exact ⟨_, rfl⟩
  | line e =>
    obtain ⟨tr, h, -⟩ := Line.draw_isPath e fuel hfuel
    exact ⟨tr, h⟩
  | circle e =>
    obtain ⟨tr, h, -⟩ := Circle.draw_symClosed e fuel hfuel
    exact ⟨tr, h⟩
  | character e => exact ⟨_, rfl⟩


theorem SymClosed.iff {x0 y0 : Int} {tr : List PutPixel} (h : SymClosed x0 y0 tr)
    (dx dy : Int) :
    (written tr (x0 + dx) (y0 + dy) ↔ written tr (x0 + dx) (y0 - dy)) ∧
    (written tr (x0 + dx) (y0 + dy) ↔ written tr (x0 - dx) (y0 + dy)) ∧
    (written tr (x0 + dx) (y0 + dy) ↔ written tr (x0 + dy) (y0 + dx)) := by
  refine ⟨⟨fun hw => (h dx dy hw).1, fun hw => ?_⟩, ⟨fun hw => (h dx dy hw).2.1, fun hw => ?_⟩,
    ⟨fun hw => (h dx dy hw).2.2, fun hw => (h dy dx hw).2.2⟩⟩
  · have h1 := (h dx (-dy) (by rw [← sub_eq_add_neg]; exact hw)).1
    rwa [sub_neg_eq_add] at h1
  · have h1 := (h (-dx) dy (by rw [← sub_eq_add_neg]; exact hw)).2.1
    rwa [sub_neg_eq_add] at h1

theorem mem_of_eq_map_recolor {k : Nat} {tr : List PutPixel}
    (h : tr = tr.map (PutPixel.recolor k)) : ∀ c ∈ tr, c.t_rgb_565 = k := by
  intro c hc
  rw [h] at hc
  obtain ⟨c', -, rfl⟩ := List.mem_map.mp hc
  rfl

theorem Circle.draw_eq_axis_append (e : Circle) (fuel : Nat) :
    e.draw fuel = (Circle.loop e.center.x e.center.y (convert_RGB888_to_RGB565 e.fg_color) fuel
      0 e.radius (1 - e.radius) 0 (-2 * e.radius)).map
      (fun rest => Circle.axis e.center.x e.center.y e.radius
        (convert_RGB888_to_RGB565 e.fg_color) ++ rest) := rfl

theorem nearCircle_octants (x0 y0 r : Int) (fg : Nat) (x y : Int)
    (h : c_abs (x * x + y * y - r * r) ≤ r) :
    ∀ c ∈ Circle.octants x0 y0 fg x y, nearCircle x0 y0 r c := by
  intro c hc
  simp only [Circle.octants, List.mem_cons, List.mem_singleton, List.not_mem_nil, or_false] at hc
  rcases hc with rfl | rfl | rfl | rfl | rfl | rfl | rfl | rfl <;>
    simp only [nearCircle] <;>
    [rw [show (x0 + x - x0) * (x0 + x - x0) + (y0 + y - y0) * (y0 + y - y0) - r * r
        = x * x + y * y - r * r by ring];
     rw [show (x0 - x - x0) * (x0 - x - x0) + (y0 + y - y0) * (y0 + y - y0) - r * r
        = x * x + y * y - r * r by ring];
     rw [show (x0 + x - x0) * (x0 + x - x0) + (y0 - y - y0) * (y0 - y - y0) - r * r
        = x * x + y * y - r * r by ring];
     rw [show (x0 - x - x0) * (x0 - x - x0) + (y0 - y - y0) * (y0 - y - y0) - r * r
        = x * x + y * y - r * r by ring];
     rw [show (x0 + y - x0) * (x0 + y - x0) + (y0 + x - y0) * (y0 + x - y0) - r * r
        = x * x + y * y - r * r by ring];
     rw [show (x0 - y - x0) * (x0 - y - x0) + (y0 + x - y0) * (y0 + x - y0) - r * r
        = x * x + y * y - r * r by ring];
     rw [show (x0 + y - x0) * (x0 + y - x0) + (y0 - x - y0) * (y0 - x - y0) - r * r
        = x * x + y * y - r * r by ring];
     rw [show (x0 - y - x0) * (x0 - y - x0) + (y0 - x - y0) * (y0 - x - y0) - r * r
        = x * x + y * y - r * r by ring]] <;>
    exact h

theorem Circle.loop_nearCircle (x0 y0 r : Int) (fg : Nat) :
    ∀ (fuel : Nat) (x y f ddF_x ddF_y D : Int),
      0 ≤ x → y ≤ r → ddF_x = 2 * x → ddF_y = -2 * y →
      D = x * x + y * y - r * r → f = D + 2 * x + 1 - y → -r ≤ D → D ≤ r →
      ∀ tr, Circle.loop x0 y0 fg fuel x y f ddF_x ddF_y = some tr →
        ∀ c ∈ tr, nearCircle x0 y0 r c := by
  intro fuel
  induction fuel with
  | zero =>
    intro x y f ddF_x ddF_y D _ _ _ _ _ _ _ _ tr h
    simp [Circle.loop] at h
  | succ k ih =>
    intro x y f ddF_x ddF_y D hx hy hddx hddy hD hf hlo hhi tr h
    simp only [Circle.loop] at h
    by_cases hxy : x < y
    · simp only [if_pos hxy] at h
      by_cases hf0 : f ≥ 0
      · simp only [if_pos hf0] at h
        cases hrest : Circle.loop x0 y0 fg k (x + 1) (y - 1) (f + (ddF_y + 2) + (ddF_x + 2 + 1))
            (ddF_x + 2) (ddF_y + 2) with
        | none => rw [hrest] at h; simp at h
        | some rest =>
          rw [hrest] at h
          simp only [Option.map_some', Option.some.injEq] at h
          subst h
          have hD' : D + 2 * x + 2 - 2 * y = (x + 1) * (x + 1) + (y - 1) * (y - 1) - r * r := by
            rw [hD]; ring
          intro c hc
          rcases List.mem_append.mp hc with hc | hc
          · refine nearCircle_octants x0 y0 r fg (x + 1) (y - 1) ?_ c hc
            rw [← hD']; unfold c_abs; split <;> omega
          · exact ih (x + 1) (y - 1) _ _ _ (D + 2 * x + 2 - 2 * y) (by omega) (by omega)
              (by omega) (by omega) hD' (by omega) (by omega) (by omega) rest hrest c hc
      · simp only [if_neg hf0] at h
        cases hrest : Circle.loop x0 y0 fg k (x + 1) y (f + (ddF_x + 2 + 1))
            (ddF_x + 2) ddF_y with
        | none => rw [hrest] at h; simp at h
        | some rest =>
          rw [hrest] at h
          simp only [Option.map_some', Option.some.injEq] at h
          subst h
          have hD' : D + 2 * x + 1 = (x + 1) * (x + 1) + y * y - r * r := by
            rw [hD]; ring
          intro c hc
          rcases List.mem_append.mp hc with hc | hc
          · refine nearCircle_octants x0 y0 r fg (x + 1) y ?_ c hc
            rw [← hD']; unfold c_abs; split <;> omega
          · exact ih (x + 1) y _ _ _ (D + 2 * x + 1) (by omega) (by omega)
              (by omega) (by omega) hD' (by omega) (by omega) (by omega) rest hrest c hc
    · simp only [if_neg hxy, Option.some.injEq] at h
      subst h
      intro c hc
      simp at hc

theorem nearCircle_in_square {x0 y0 r : Int} {c : PutPixel} (hr : 0 ≤ r)
    (h : nearCircle x0 y0 r c) :
    x0 - r ≤ c.t_x ∧ c.t_x ≤ x0 + r ∧ y0 - r ≤ c.t_y ∧ c.t_y ≤ y0 + r := by
  simp only [nearCircle, c_abs] at h
  have hx := mul_self_nonneg (c.t_x - x0)
  have hy := mul_self_nonneg (c.t_y - y0)
  have hub : (c.t_x - x0) * (c.t_x - x0) + (c.t_y - y0) * (c.t_y - y0) ≤ r * r + r := by
    split at h <;> omega
  refine ⟨?_, ?_, ?_, ?_⟩ <;> by_contra hc <;> nlinarith

theorem nearCircle_axis (x0 y0 r : Int) (fg : Nat) (hr : 0 ≤ r) :
    ∀ c ∈ Circle.axis x0 y0 r fg, nearCircle x0 y0 r c := by
  intro c hc
  simp only [Circle.axis, List.mem_cons, List.mem_singleton, List.not_mem_nil, or_false] at hc
  rcases hc with rfl | rfl | rfl | rfl <;> simp only [nearCircle] <;>
    [rw [show (x0 - x0) * (x0 - x0) + (y0 + r - y0) * (y0 + r - y0) - r * r = 0 by ring];
     rw [show (x0 - x0) * (x0 - x0) + (y0 - r - y0) * (y0 - r - y0) - r * r = 0 by ring];
     rw [show (x0 + r - x0) * (x0 + r - x0) + (y0 - y0) * (y0 - y0) - r * r = 0 by ring];
     rw [show (x0 - r - x0) * (x0 - r - x0) + (y0 - y0) * (y0 - y0) - r * r = 0 by ring]] <;>
    simpa [c_abs] using hr

theorem Line.loop_xmajor_track (x1 y1 dx sx dy sy : Int) (fg : Nat)
    (hsx : sx = 1 ∨ sx = -1) (hdy : dy ≤ 0) (hmaj : -dy ≤ dx) (hdx : 0 < dx) :
    ∀ (n fuel : Nat) (x y err m : Int),
      x1 = x + sx * n → y1 = y + sy * m →
      err = dx * (1 - m) + (-dy) * (n - 1) →
      dx + 2 * dy ≤ 2 * err → 2 * err ≤ 3 * dx + 2 * dy →
      n + 1 ≤ fuel →
      ∃ tr, Line.loop x1 y1 dx sx dy sy fg fuel x y err = some tr ∧
        (∀ c ∈ tr, ∃ a b : Int, 0 ≤ a ∧ a ≤ n ∧ c.t_x = x1 - sx * a ∧ c.t_y = y1 - sy * b ∧
          -dx ≤ 2 * ((-dy) * a - dx * b) ∧ 2 * ((-dy) * a - dx * b) ≤ dx) ∧
        (∀ a : Int, 0 ≤ a → a ≤ n → ∃ c ∈ tr, c.t_x = x1 - sx * a) := by
  intro n
  induction n with
  | zero =>
    intro fuel x y err m hx hy herr hlo hhi hfuel
    obtain ⟨k, rfl⟩ : ∃ k, fuel = k + 1 := ⟨fuel - 1, by omega⟩
    have hm : m = 0 := by
      simp only [Nat.cast_zero] at herr
      rcases lt_trichotomy m 0 with h | h | h
      · nlinarith
      · exact h
      · nlinarith
    subst hm
    have hx' : x = x1 := by simp at hx; omega
    have hy' : y = y1 := by simp at hy; omega
    subst hx' hy'
    refine ⟨[⟨x, y, fg⟩], by simp [Line.loop], ?_, ?_⟩
    · intro c hc
      rw [List.mem_singleton] at hc
      subst hc
      exact ⟨0, 0, le_refl _, by simp, by simp, by simp, by simp; omega, by simp; omega⟩
    · intro a ha0 ha
      have : a = 0 := by simp at ha; omega
      subst this
      exact ⟨_, List.mem_singleton.mpr rfl, by simp⟩
  | succ n ih =>
    intro fuel x y err m hx hy herr hlo hhi hfuel
    obtain ⟨k, rfl⟩ : ∃ k, fuel = k + 1 := ⟨fuel - 1, by omega⟩
    push_cast at hx herr
    have hne : ¬ (x = x1 ∧ y = y1) := by
      rintro ⟨h, -⟩
      rcases hsx with h1 | h1 <;> subst h1 <;> omega
    have hA : 2 * err ≥ dy := by omega
    have hid : (-dy) * ((n : Int) + 1) - dx * m = err - dx - dy := by rw [herr]; ring
    have hhead : ∃ a b : Int, 0 ≤ a ∧ a ≤ ((n + 1 : Nat) : Int) ∧ x = x1 - sx * a ∧
        y = y1 - sy * b ∧ -dx ≤ 2 * ((-dy) * a - dx * b) ∧ 2 * ((-dy) * a - dx * b) ≤ dx :=
      ⟨(n : Int) + 1, m, by omega, by push_cast; omega, by rw [hx]; ring, by rw [hy]; ring,
        by rw [hid]; omega, by rw [hid]; omega⟩
    simp only [Line.loop, if_neg hne, if_pos hA]
    have key : ∀ (y' err' m' : Int), y1 = y' + sy * m' →
        err' = dx * (1 - m') + (-dy) * ((n : Int) - 1) →
        dx + 2 * dy ≤ 2 * err' → 2 * err' ≤ 3 * dx + 2 * dy →
        ∃ tr, (Line.loop x1 y1 dx sx dy sy fg k (x + sx) y' err').map
            (fun rest => (⟨x, y, fg⟩ : PutPixel) :: rest) = some tr ∧
          (∀ c ∈ tr, ∃ a b : Int, 0 ≤ a ∧ a ≤ ((n + 1 : Nat) : Int) ∧ c.t_x = x1 - sx * a ∧
            c.t_y = y1 - sy * b ∧
            -dx ≤ 2 * ((-dy) * a - dx * b) ∧ 2 * ((-dy) * a - dx * b) ≤ dx) ∧
          (∀ a : Int, 0 ≤ a → a ≤ ((n + 1 : Nat) : Int) → ∃ c ∈ tr, c.t_x = x1 - sx * a) := by
      intro y' err' m' hy' herr' hlo' hhi'
      obtain ⟨tr, htr, hp, hcov⟩ := ih k (x + sx) y' err' m'
        (by rw [hx]; ring) hy' herr' hlo' hhi' (by omega)
      refine ⟨_, by rw [htr]; rfl, ?_, ?_⟩
      · intro c hc
        rcases List.mem_cons.mp hc with rfl | hc
        · exact hhead
        · obtain ⟨a, b, h0, h1, h2⟩ := hp c hc
          exact ⟨a, b, h0, by push_cast; omega, h2⟩
      · intro a ha0 ha
        by_cases hlast : a = (n : Int) + 1
        · exact ⟨_, List.mem_cons_self _ _, by subst hlast; rw [hx]; ring⟩
        · obtain ⟨c, hc, hcx⟩ := hcov a ha0 (by push_cast at ha; omega)
          exact ⟨c, List.mem_cons_of_mem _ hc, hcx⟩
    by_cases hB : 2 * err ≤ dx
    · simp only [if_pos hB]
      exact key (y + sy) (err + dy + dx) (m - 1) (by rw [hy]; ring) (by rw [herr]; ring)
        (by omega) (by omega)
    · simp only [if_neg hB]
      exact key y (err + dy) m hy (by rw [herr]; ring) (by omega) (by omega)

theorem Line.loop_ymajor_track (x1 y1 dx sx dy sy : Int) (fg : Nat)
    (hsy : sy = 1 ∨ sy = -1) (hdx : 0 ≤ dx) (hmaj : dx ≤ -dy) (hdy : dy < 0) :
    ∀ (n fuel : Nat) (x y err m : Int),
      x1 = x + sx * m → y1 = y + sy * n →
      err = dx * (1 - n) + (-dy) * (m - 1) →
      2 * dx + 3 * dy ≤ 2 * err → 2 * err ≤ 2 * dx + dy →
      n + 1 ≤ fuel →
      ∃ tr, Line.loop x1 y1 dx sx dy sy fg fuel x y err = some tr ∧
        (∀ c ∈ tr, ∃ a b : Int, 0 ≤ b ∧ b ≤ n ∧ c.t_x = x1 - sx * a ∧ c.t_y = y1 - sy * b ∧
          dy ≤ 2 * ((-dy) * a - dx * b) ∧ 2 * ((-dy) * a - dx * b) ≤ -dy) ∧
        (∀ b : Int, 0 ≤ b → b ≤ n → ∃ c ∈ tr, c.t_y = y1 - sy * b) := by
  intro n
  induction n with
  | zero =>
    intro fuel x y err m hx hy herr hlo hhi hfuel
    obtain ⟨k, rfl⟩ : ∃ k, fuel = k + 1 := ⟨fuel - 1, by omega⟩
    have hm : m = 0 := by
      simp only [Nat.cast_zero] at herr
      rcases lt_trichotomy m 0 with h | h | h
      · nlinarith
      · exact h
      · nlinarith
    subst hm
    have hx' : x = x1 := by simp at hx; omega
    have hy' : y = y1 := by simp at hy; omega
    subst hx' hy'
    refine ⟨[⟨x, y, fg⟩], by simp [Line.loop], ?_, ?_⟩
    · intro c hc
      rw [List.mem_singleton] at hc
      subst hc
      exact ⟨0, 0, le_refl _, by simp, by simp, by simp, by simp; omega, by simp; omega⟩
    · intro b hb0 hb
      have : b = 0 := by simp at hb; omega
      subst this
      exact ⟨_, List.mem_singleton.mpr rfl, by simp⟩
  | succ n ih =>
    intro fuel x y err m hx hy herr hlo hhi hfuel
    obtain ⟨k, rfl⟩ : ∃ k, fuel = k + 1 := ⟨fuel - 1, by omega⟩
    push_cast at hy herr
    have hne : ¬ (x = x1 ∧ y = y1) := by
      rintro ⟨-, h⟩
      rcases hsy with h1 | h1 <;> subst h1 <;> omega
    have hB : 2 * err ≤ dx := by omega
    have hid : (-dy) * m - dx * ((n : Int) + 1) = err - dx - dy := by rw [herr]; ring
    have hhead : ∃ a b : Int, 0 ≤ b ∧ b ≤ ((n + 1 : Nat) : Int) ∧ x = x1 - sx * a ∧
        y = y1 - sy * b ∧ dy ≤ 2 * ((-dy) * a - dx * b) ∧ 2 * ((-dy) * a - dx * b) ≤ -dy :=
      ⟨m, (n : Int) + 1, by omega, by push_cast; omega, by rw [hx]; ring, by rw [hy]; ring,
        by rw [hid]; omega, by rw [hid]; omega⟩
    simp only [Line.loop, if_neg hne, if_pos hB]
    have key : ∀ (x' err' m' : Int), x1 = x' + sx * m' →
        err' = dx * (1 - (n : Int)) + (-dy) * (m' - 1) →
        2 * dx + 3 * dy ≤ 2 * err' → 2 * err' ≤ 2 * dx + dy →
        ∃ tr, (Line.loop x1 y1 dx sx dy sy fg k x' (y + sy) err').map
            (fun rest => (⟨x, y, fg⟩ : PutPixel) :: rest) = some tr ∧
          (∀ c ∈ tr, ∃ a b : Int, 0 ≤ b ∧ b ≤ ((n + 1 : Nat) : Int) ∧ c.t_x = x1 - sx * a ∧
            c.t_y = y1 - sy * b ∧
            dy ≤ 2 * ((-dy) * a - dx * b) ∧ 2 * ((-dy) * a - dx * b) ≤ -dy) ∧
          (∀ b : Int, 0 ≤ b → b ≤ ((n + 1 : Nat) : Int) → ∃ c ∈ tr, c.t_y = y1 - sy * b) := by
      intro x' err' m' hx' herr' hlo' hhi'
      obtain ⟨tr, htr, hp, hcov⟩ := ih k x' (y + sy) err' m'
        hx' (by rw [hy]; ring) herr' hlo' hhi' (by omega)
      refine ⟨_, by rw [htr]; rfl, ?_, ?_⟩
      · intro c hc
        rcases List.mem_cons.mp hc with rfl | hc
        · exact hhead
        · obtain ⟨a, b, h0, h1, h2⟩ := hp c hc
          exact ⟨a, b, h0, by push_cast; omega, h2⟩
      · intro b hb0 hb
        by_cases hlast : b = (n : Int) + 1
        · exact ⟨_, List.mem_cons_self _ _, by subst hlast; rw [hy]; ring⟩
        · obtain ⟨c, hc, hcy⟩ := hcov b hb0 (by push_cast at hb; omega)
          exact ⟨c, List.mem_cons_of_mem _ hc, hcy⟩
    by_cases hA : 2 * err ≥ dy
    · simp only [if_pos hA]
      exact key (x + sx) (err + dy + dx) (m - 1) (by rw [hx]; ring) (by rw [herr]; ring)
        (by omega) (by omega)
    · simp only [if_neg hA]
      exact key x (err + dx) m hx (by rw [herr]; ring) (by omega) (by omega)

theorem track_nearIdeal {sx sy dx ady a b M xa ya xb yb cx cy : Int}
    (hsx : sx = 1 ∨ sx = -1) (hsy : sy = 1 ∨ sy = -1)
    (hxb : xb = xa + sx * dx) (hyb : yb = ya + sy * ady)
    (hcx : cx = xb - sx * a) (hcy : cy = yb - sy * b)
    (h1 : -M ≤ 2 * (ady * a - dx * b)) (h2 : 2 * (ady * a - dx * b) ≤ M) :
    2 * c_abs ((xb - xa) * (cy - ya) - (yb - ya) * (cx - xa)) ≤ M := by
  have hu : (xb - xa) * (cy - ya) - (yb - ya) * (cx - xa) = sx * sy * (ady * a - dx * b) := by
    rw [hcx, hcy, hxb, hyb]; ring
  rw [hu]
  rcases hsx with h | h <;> rcases hsy with h' | h' <;> subst h h' <;>
    simp only [c_abs] <;> split <;> linarith

theorem track_inBox {sx sy dx ady a b xa ya xb yb cx cy : Int}
    (hsx : sx = 1 ∨ sx = -1) (hsy : sy = 1 ∨ sy = -1)
    (hxb : xb = xa + sx * dx) (hyb : yb = ya + sy * ady)
    (hcx : cx = xb - sx * a) (hcy : cy = yb - sy * b)
    (ha0 : 0 ≤ a) (ha : a ≤ dx) (hb0 : 0 ≤ b) (hb : b ≤ ady) :
    min xa xb ≤ cx ∧ cx ≤ max xa xb ∧ min ya yb ≤ cy ∧ cy ≤ max ya yb := by
  rcases hsx with h | h <;> rcases hsy with h' | h' <;> subst h h' <;> omega

theorem track_minor_x {dx ady a b : Int} (hdx : 0 < dx) (hady : 0 ≤ ady)
    (ha0 : 0 ≤ a) (ha : a ≤ dx)
    (h1 : -dx ≤ 2 * (ady * a - dx * b)) (h2 : 2 * (ady * a - dx * b) ≤ dx) :
    0 ≤ b ∧ b ≤ ady := by
  constructor
  · by_contra hc
    have hb : b ≤ -1 := by omega
    nlinarith [mul_nonneg hady ha0, mul_nonneg hdx.le (sub_nonneg.2 hb)]
  · by_contra hc
    have hb : ady + 1 ≤ b := by omega
    nlinarith [mul_nonneg hady (sub_nonneg.2 ha), mul_nonneg hdx.le (sub_nonneg.2 hb)]

theorem track_minor_y {dx ady a b : Int} (hady : 0 < ady) (hdx : 0 ≤ dx)
    (hb0 : 0 ≤ b) (hb : b ≤ ady)
    (h1 : -ady ≤ 2 * (ady * a - dx * b)) (h2 : 2 * (ady * a - dx * b) ≤ ady) :
    0 ≤ a ∧ a ≤ dx := by
  constructor
  · by_contra hc
    have ha : a ≤ -1 := by omega
    nlinarith [mul_nonneg hdx hb0, mul_nonneg hady.le (sub_nonneg.2 ha)]
  · by_contra hc
    have ha : dx + 1 ≤ a := by omega
    nlinarith [mul_nonneg hdx (sub_nonneg.2 hb), mul_nonneg hady.le (sub_nonneg.2 ha)]

theorem Line.draw_track (e : Line) (fuel : Nat) (hfuel : e.steps + 1 ≤ fuel) :
    ∃ tr, e.draw fuel = some tr ∧
      (∀ c ∈ tr, e.nearIdeal c.t_x c.t_y ∧ e.inBox c.t_x c.t_y) ∧
      (c_abs (e.pos2.y - e.pos1.y) ≤ c_abs (e.pos2.x - e.pos1.x) →
        ∀ x, min e.pos1.x e.pos2.x ≤ x → x ≤ max e.pos1.x e.pos2.x → ∃ c ∈ tr, c.t_x = x) ∧
      (c_abs (e.pos2.x - e.pos1.x) < c_abs (e.pos2.y - e.pos1.y) →
        ∀ y, min e.pos1.y e.pos2.y ≤ y → y ≤ max e.pos1.y e.pos2.y → ∃ c ∈ tr, c.t_y = y) := by
  obtain ⟨ge, ⟨xa, ya⟩, ⟨xb, yb⟩⟩ := e
  simp only [Line.steps] at hfuel
  simp only [Line.draw, Line.nearIdeal, Line.inBox]
  have hsx : (if xa < xb then (1 : Int) else -1) = 1 ∨ (if xa < xb then (1 : Int) else -1) = -1 := by
    split <;> simp
  have hsy : (if ya < yb then (1 : Int) else -1) = 1 ∨ (if ya < yb then (1 : Int) else -1) = -1 := by
    split <;> simp
  have hdx0 : 0 ≤ c_abs (xb - xa) := by unfold c_abs; split <;> omega
  have hdy0 : 0 ≤ c_abs (yb - ya) := by unfold c_abs; split <;> omega
  have hxb : xb = xa + (if xa < xb then (1 : Int) else -1) * c_abs (xb - xa) := by
    unfold c_abs; split <;> split <;> omega
  have hyb : yb = ya + (if ya < yb then (1 : Int) else -1) * c_abs (yb - ya) := by
    unfold c_abs; split <;> split <;> omega
  generalize hsxd : (if xa < xb then (1 : Int) else -1) = sx at *
  generalize hsyd : (if ya < yb then (1 : Int) else -1) = sy at *
  generalize hdxd : c_abs (xb - xa) = dx at *
  generalize hdyd : c_abs (yb - ya) = ady at *
  by_cases hmaj : ady ≤ dx
  · rw [max_eq_left hmaj] at hfuel ⊢
    by_cases hz : dx = 0
    · have ha : ady = 0 := by omega
      subst hz ha
      have h1 : xa = xb := by rcases hsx with h | h <;> subst h <;> omega
      have h2 : ya = yb := by rcases hsy with h | h <;> subst h <;> omega
      subst h1 h2
      obtain ⟨k, rfl⟩ : ∃ k, fuel = k + 1 := ⟨fuel - 1, by omega⟩
      refine ⟨[⟨xa, ya, convert_RGB888_to_RGB565 ge.fg_color⟩], by simp [Line.loop], ?_, ?_, ?_⟩
      · intro c hc
        rw [List.mem_singleton] at hc
        subst hc
        simp [c_abs]
      · intro _ x h1 h2
        exact ⟨_, List.mem_singleton.mpr rfl, by simp at h1 h2 ⊢; omega⟩
      · intro h; omega
    · obtain ⟨tr, htr, hp, hcov⟩ := Line.loop_xmajor_track xb yb dx sx (-ady) sy
        (convert_RGB888_to_RGB565 ge.fg_color) hsx (by omega) (by omega) (by omega)
        dx.toNat fuel xa ya (dx + -ady) ady
        (by rw [Int.toNat_of_nonneg hdx0]; exact hxb) hyb
        (by rw [Int.toNat_of_nonneg hdx0]; ring) (by omega) (by omega) hfuel
      rw [Int.toNat_of_nonneg hdx0] at hp hcov
      simp only [neg_neg] at hp
      refine ⟨tr, htr, ?_, ?_, ?_⟩
      · intro c hc
        obtain ⟨a, b, ha0, ha, hcx, hcy, hlo, hhi⟩ := hp c hc
        obtain ⟨hb0, hb⟩ := track_minor_x (by omega) hdy0 ha0 ha hlo hhi
        exact ⟨track_nearIdeal hsx hsy hxb hyb hcx hcy hlo hhi,
          track_inBox hsx hsy hxb hyb hcx hcy ha0 ha hb0 hb⟩
      · intro _ x h1 h2
        obtain ⟨c, hc, hcx⟩ := hcov (sx * (xb - x))
          (by rcases hsx with h | h <;> subst h <;> omega)
          (by rcases hsx with h | h <;> subst h <;> omega)
        refine ⟨c, hc, ?_⟩
        rw [hcx]
        rcases hsx with h | h <;> subst h <;> ring
      · intro h; omega
  · have hlt : dx < ady := by omega
    rw [max_eq_right (le_of_lt hlt)] at hfuel ⊢
    obtain ⟨tr, htr, hp, hcov⟩ := Line.loop_ymajor_track xb yb dx sx (-ady) sy
      (convert_RGB888_to_RGB565 ge.fg_color) hsy hdx0 (by omega) (by omega)
      ady.toNat fuel xa ya (dx + -ady) dx hxb
      (by rw [Int.toNat_of_nonneg hdy0]; exact hyb)
      (by rw [Int.toNat_of_nonneg hdy0]; ring) (by omega) (by omega) hfuel
    rw [Int.toNat_of_nonneg hdy0] at hp hcov
    simp only [neg_neg] at hp
    refine ⟨tr, htr, ?_, ?_, ?_⟩
    · intro c hc
      obtain ⟨a, b, hb0, hb, hcx, hcy, hlo, hhi⟩ := hp c hc
      obtain ⟨ha0, ha⟩ := track_minor_y (by omega) hdx0 hb0 hb hlo hhi
      exact ⟨track_nearIdeal hsx hsy hxb hyb hcx hcy hlo hhi,
        track_inBox hsx hsy hxb hyb hcx hcy ha0 ha hb0 hb⟩
    · intro h; omega
    · intro _ y h1 h2
      obtain ⟨c, hc, hcy⟩ := hcov (sy * (yb - y))
        (by rcases hsy with h | h <;> subst h <;> omega)
        (by rcases hsy with h | h <;> subst h <;> omega)
      refine ⟨c, hc, ?_⟩
      rw [hcy]
      rcases hsy with h | h <;> subst h <;> ring

theorem c_abs_sub_comm (a b : Int) : c_abs (a - b) = c_abs (b - a) := by
  unfold c_abs; split <;> split <;> omega

theorem c_abs_neg (a : Int) : c_abs (-a) = c_abs a := by
  unfold c_abs; split <;> split <;> omega

theorem unique_minor {A u u' d M : Int} (hM : M = c_abs A) (hpos : 0 < M)
    (h : 2 * c_abs u ≤ M) (h' : 2 * c_abs u' ≤ M) (hd : u - u' = A * d)
    (hne : 2 * c_abs u ≠ M) : d = 0 := by
  have hlt : 2 * c_abs u < M := lt_of_le_of_ne h hne
  by_contra hd0
  simp only [c_abs] at hM h' hlt
  rcases lt_or_gt_of_ne hd0 with hneg | hpos'
  · have hd1 : d ≤ -1 := by omega
    split at hM
    · have : 0 ≤ (-A) * (-1 - d) := mul_nonneg (by omega) (by omega)
      split at h' <;> split at hlt <;> nlinarith
    · have : 0 ≤ A * (-1 - d) := mul_nonneg (by omega) (by omega)
      split at h' <;> split at hlt <;> nlinarith
  · have hd1 : 1 ≤ d := by omega
    split at hM
    · have : 0 ≤ (-A) * (d - 1) := mul_nonneg (by omega) (by omega)
      split at h' <;> split at hlt <;> nlinarith
    · have : 0 ≤ A * (d - 1) := mul_nonneg (by omega) (by omega)
      split at h' <;> split at hlt <;> nlinarith

theorem Line.halfway_reversed (e : Line) (x y : Int) :
    e.reversed.halfway x y ↔ e.halfway x y := by
  obtain ⟨ge, ⟨xa, ya⟩, ⟨xb, yb⟩⟩ := e
  simp only [Line.halfway, Line.reversed]
  rw [c_abs_sub_comm xa xb, c_abs_sub_comm ya yb,
    show (xa - xb) * (y - yb) - (ya - yb) * (x - xb)
      = -((xb - xa) * (y - ya) - (yb - ya) * (x - xa)) by ring, c_abs_neg]

theorem Line.steps_reversed (e : Line) : e.reversed.steps = e.steps := by
  obtain ⟨ge, ⟨xa, ya⟩, ⟨xb, yb⟩⟩ := e
  simp only [Line.steps, Line.reversed]
  rw [c_abs_sub_comm xa xb, c_abs_sub_comm ya yb]

theorem Line.written_reversed (e : Line) (fuel : Nat) (hfuel : e.steps + 1 ≤ fuel)
    (hno : ∀ x y, ¬ e.halfway x y) :
    ∃ tr tr', e.draw fuel = some tr ∧ e.reversed.draw fuel = some tr' ∧
      ∀ x y, written tr x y → written tr' x y := by
  obtain ⟨tr, htr, hp, -, -⟩ := Line.draw_track e fuel hfuel
  obtain ⟨tr', htr', hp', hcx', hcy'⟩ := Line.draw_track e.reversed fuel
    (by rw [Line.steps_reversed]; exact hfuel)
  refine ⟨tr, tr', htr, htr', ?_⟩
  rintro x y ⟨c, hc, rfl, rfl⟩
  obtain ⟨hn, hb⟩ := hp c hc
  have hnh := hno c.t_x c.t_y
  obtain ⟨ge, ⟨xa, ya⟩, ⟨xb, yb⟩⟩ := e
  simp only [Line.nearIdeal, Line.inBox, Line.reversed, Line.halfway] at hn hb hp' hcx' hcy' hnh
  rw [c_abs_sub_comm xa xb, c_abs_sub_comm ya yb] at hp' hcx' hcy'
  by_cases hmaj : c_abs (yb - ya) ≤ c_abs (xb - xa)
  · obtain ⟨c', hc', hx'⟩ := hcx' hmaj c.t_x (by omega) (by omega)
    obtain ⟨hn', hb'⟩ := hp' c' hc'
    refine ⟨c', hc', hx', ?_⟩
    rw [max_eq_left hmaj] at hn hn' hnh
    rw [hx', show (xa - xb) * (c'.t_y - yb) - (ya - yb) * (c.t_x - xb)
      = -((xb - xa) * (c'.t_y - ya) - (yb - ya) * (c.t_x - xa)) by ring, c_abs_neg] at hn'
    by_cases hpos : 0 < c_abs (xb - xa)
    · have := unique_minor (A := xb - xa) (d := c.t_y - c'.t_y) rfl hpos hn hn' (by ring)
        (fun h => hnh ⟨hpos, h⟩)
      omega
    · have h0 : c_abs (yb - ya) ≤ 0 := by omega
      unfold c_abs at h0
      split at h0 <;> omega
  · have hlt : c_abs (xb - xa) < c_abs (yb - ya) := by omega
    obtain ⟨c', hc', hy'⟩ := hcy' hlt c.t_y (by omega) (by omega)
    obtain ⟨hn', hb'⟩ := hp' c' hc'
    refine ⟨c', hc', ?_, hy'⟩
    rw [max_eq_right hlt.le] at hn hn' hnh
    rw [hy', show (xa - xb) * (c.t_y - yb) - (ya - yb) * (c'.t_x - xb)
      = -((xb - xa) * (c.t_y - ya) - (yb - ya) * (c'.t_x - xa)) by ring, c_abs_neg] at hn'
    have hpos : 0 < c_abs (yb - ya) := by
      have : 0 ≤ c_abs (xb - xa) := by unfold c_abs; split <;> omega
      omega
    have := unique_minor (A := yb - ya) (d := c'.t_x - c.t_x) rfl hpos hn hn' (by ring)
      (fun h => hnh ⟨hpos, h⟩)
    omega

theorem Line.reversed_reversed (e : Line) : e.reversed.reversed = e := rfl

theorem toInt32_wrap (x p : Int) :
    toInt32 (toUInt64 (toUInt64 x + toUInt64 p)) = toInt32 (x + p) := by
  unfold toInt32 toUInt64
  omega

theorem toInt32_sum (x p : Int) (h1 : -2147483648 ≤ x + p) (h2 : x + p < 2147483648) :
    toInt32 (toUInt64 (toUInt64 x + toUInt64 p)) = x + p := by
  unfold toInt32 toUInt64
  omega

theorem Text.initChars_length (type_bits width height : Nat) (font0 : Font) (pos : Point2D)
    (fg bg : RGB) : ∀ (str : List Int) (i : Nat),
      (Text.initChars type_bits width height font0 pos fg bg i str).length = str.length := by
  intro str
  induction str with
  | nil => intro i; rfl
  | cons ch rest ih => intro i; simp [Text.initChars, ih]

theorem Text.initChars_getElem (type_bits width height : Nat) (font0 : Font) (pos : Point2D)
    (fg bg : RGB) : ∀ (str : List Int) (i k : Nat),
      (Text.initChars type_bits width height font0 pos fg bg i str)[k]? =
        str[k]?.map fun ch => (Character.ctor0 type_bits width height font0).assign
          (Character.ctor type_bits width height font0
            ⟨toInt32 (toUInt64 (toUInt64 pos.x + toUInt64 (((i + k : Nat) : Int) * (width : Int)))),
              pos.y⟩ ch fg bg) := by
  intro str
  induction str with
  | nil => intro i k; simp [Text.initChars]
  | cons ch rest ih =>
    intro i k
    cases k with
    | zero => simp [Text.initChars]
    | succ k =>
      simp only [Text.initChars, List.getElem?_cons_succ]
      rw [ih (i + 1) k, show i + 1 + k = i + (k + 1) by omega]

theorem Text.initChars_colours (type_bits width height : Nat) (font0 : Font) (pos : Point2D)
    (fg bg : RGB) : ∀ (str : List Int) (i : Nat),
      ∀ g ∈ Text.initChars type_bits width height font0 pos fg bg i str,
        g.fg_color = ⟨255, 255, 255⟩ ∧ g.bg_color = ⟨0, 0, 0⟩ := by
  intro str
  induction str with
  | nil => intro i g hg; simp [Text.initChars] at hg
  | cons ch rest ih =>
    intro i g hg
    simp only [Text.initChars, List.mem_cons] at hg
    rcases hg with rfl | hg
    · exact ⟨rfl, rfl⟩
    · exact ih (i + 1) g hg

/-! ## Line: pixel count and connectivity -/

/-- Claim C1: for all points `p0` and `p1` (in the integer embedding, i.e. as long as
no 32-bit arithmetic overflows), `Line(p0, p1).draw()` terminates, within
`max(|p1.x-p0.x|, |p1.y-p0.y|) + 1` loop iterations, and makes exactly
`max(|p1.x-p0.x|, |p1.y-p0.y|) + 1` calls of `lcd_put_pixel`; exactly one when
`p0 = p1`. -/
theorem Line.draw_pixel_count (e : Line) (fuel : Nat)
    (hfuel : max (c_abs (e.pos2.x - e.pos1.x)) (c_abs (e.pos2.y - e.pos1.y)) + 1 ≤ (fuel : Int)) :
    ∃ tr, e.draw fuel = some tr ∧
      (tr.length : Int) =
        max (c_abs (e.pos2.x - e.pos1.x)) (c_abs (e.pos2.y - e.pos1.y)) + 1 ∧
      (e.pos1 = e.pos2 → tr.length = 1) := by
  have hs := Line.steps_cast e
  obtain ⟨tr, htr, hlen, -⟩ := Line.draw_isPath e fuel (by omega)
  refine ⟨tr, htr, by rw [hlen]; push_cast; omega, ?_⟩
  intro heq
  rw [hlen]
  have : (e.steps : Int) = 0 := by
    rw [hs, heq]
    simp [c_abs]
  omega

/-- The line of `main` is drawn with 101 calls. -/
theorem Line.draw_pixel_count_witness :
    max (c_abs (main_line.pos2.x - main_line.pos1.x))
        (c_abs (main_line.pos2.y - main_line.pos1.y)) + 1 ≤ ((101 : Nat) : Int) ∧
    ∃ tr, main_line.draw 101 = some tr ∧
      (tr.length : Int) =
        max (c_abs (main_line.pos2.x - main_line.pos1.x))
          (c_abs (main_line.pos2.y - main_line.pos1.y)) + 1 ∧
      (main_line.pos1 = main_line.pos2 → tr.length = 1) :=
  ⟨by decide, Line.draw_pixel_count main_line 101 (by decide)⟩

/-- Claim C2: the calls made by `Line(p0, p1).draw()` form an 8-connected path
from `p0` to `p1`: the first call addresses `p0`, the last call addresses `p1`, and
two consecutive calls address distinct coordinates that differ by at most 1 in
`x` and by at most 1 in `y` (for `p0 = p1` the path is the single call at `p0`). -/
theorem Line.draw_connected_path (e : Line) (fuel : Nat)
    (hfuel : max (c_abs (e.pos2.x - e.pos1.x)) (c_abs (e.pos2.y - e.pos1.y)) + 1 ≤ (fuel : Int)) :
    ∃ tr, e.draw fuel = some tr ∧
      tr.head? = some ⟨e.pos1.x, e.pos1.y, convert_RGB888_to_RGB565 e.fg_color⟩ ∧
      tr.getLast? = some ⟨e.pos2.x, e.pos2.y, convert_RGB888_to_RGB565 e.fg_color⟩ ∧
      List.Chain' adjacent tr := by
  have hs := Line.steps_cast e
  obtain ⟨tr, htr, -, hhead, hlast, hchain⟩ := Line.draw_isPath e fuel (by omega)
  exact ⟨tr, htr, hhead, hlast, hchain⟩

/-- The line of `main` is a connected path from (200, 150) to (300, 80). -/
theorem Line.draw_connected_path_witness :
    max (c_abs (main_line.pos2.x - main_line.pos1.x))
        (c_abs (main_line.pos2.y - main_line.pos1.y)) + 1 ≤ ((101 : Nat) : Int) ∧
    ∃ tr, main_line.draw 101 = some tr ∧
      tr.head? = some ⟨main_line.pos1.x, main_line.pos1.y,
        convert_RGB888_to_RGB565 main_line.fg_color⟩ ∧
      tr.getLast? = some ⟨main_line.pos2.x, main_line.pos2.y,
        convert_RGB888_to_RGB565 main_line.fg_color⟩ ∧
      List.Chain' adjacent tr :=
  ⟨by decide, Line.draw_connected_path main_line 101 (by decide)⟩


/-! ## Circle: symmetry -/

/-- Claim C3: for every centre `c` and radius `r ≥ 0`, `Circle(c, r).draw()` terminates
(within `r + 1` visits of the loop head) and the set of coordinates it writes is
invariant under the reflection across the horizontal axis through `c`, across the
vertical axis through `c`, and across the diagonal through `c`. -/
theorem Circle.draw_reflection_invariant (e : Circle) (fuel : Nat) (hr : 0 ≤ e.radius)
    (hfuel : e.radius + 1 ≤ (fuel : Int)) :
    ∃ tr, e.draw fuel = some tr ∧ ∀ dx dy : Int,
      (written tr (e.center.x + dx) (e.center.y + dy) ↔
        written tr (e.center.x + dx) (e.center.y - dy)) ∧
      (written tr (e.center.x + dx) (e.center.y + dy) ↔
        written tr (e.center.x - dx) (e.center.y + dy)) ∧
      (written tr (e.center.x + dx) (e.center.y + dy) ↔
        written tr (e.center.x + dy) (e.center.y + dx)) := by
  obtain ⟨tr, htr, hs⟩ := Circle.draw_symClosed e fuel (by omega)
  exact ⟨tr, htr, fun dx dy => hs.iff dx dy⟩

/-- A circle of radius 3 is drawn within 4 visits of the loop head, symmetrically. -/
theorem Circle.draw_reflection_invariant_witness :
    0 ≤ small_circle.radius ∧ small_circle.radius + 1 ≤ ((4 : Nat) : Int) ∧
    ∃ tr, small_circle.draw 4 = some tr ∧ ∀ dx dy : Int,
      (written tr (small_circle.center.x + dx) (small_circle.center.y + dy) ↔
        written tr (small_circle.center.x + dx) (small_circle.center.y - dy)) ∧
      (written tr (small_circle.center.x + dx) (small_circle.center.y + dy) ↔
        written tr (small_circle.center.x - dx) (small_circle.center.y + dy)) ∧
      (written tr (small_circle.center.x + dx) (small_circle.center.y + dy) ↔
        written tr (small_circle.center.x + dy) (small_circle.center.y + dx)) :=
  ⟨by decide, by decide,
    Circle.draw_reflection_invariant small_circle 4 (by decide) (by decide)⟩

/-! ## Colour conversion -/

/-- Claim C4, evaluated on the source: for pure green `RGB(0, 255, 0)` the function
`convert_RGB888_to_RGB565` returns `0x0FC0`, not the value `0x07E0` of the formula
`((r >> 3) << 11) | ((g >> 2) << 5) | (b >> 3)`; bit 11, which belongs to the red
field, is set and bit 5, which belongs to the green field, is clear. -/
theorem convert_green_field_misplaced :
    convert_RGB888_to_RGB565 ⟨0, 255, 0⟩ = 0x0FC0 ∧
    ((0 >>> 3) <<< 11 ||| (255 >>> 2) <<< 5 ||| 0 >>> 3) = 0x07E0 ∧
    (convert_RGB888_to_RGB565 ⟨0, 255, 0⟩).testBit 11 = true ∧
    (convert_RGB888_to_RGB565 ⟨0, 255, 0⟩).testBit 5 = false := by
  decide

/-- Claim C5, evaluated on the source: packing pure green `RGB(0, 255, 0)` and
unpacking it in `lcd_put_pixel` stores blue 0, green 248 and red 8, whereas the
truncated colour is blue `0 & 0xF8 = 0`, green `255 & 0xFC = 252`, red `0 & 0xF8 = 0`. -/
theorem pack_unpack_green_not_truncation :
    l_rgb_888 (convert_RGB888_to_RGB565 ⟨0, 255, 0⟩) = ⟨0, 248, 8⟩ ∧
    (⟨0 &&& 0xF8, 255 &&& 0xFC, 0 &&& 0xF8⟩ : Vec3b) = ⟨0, 252, 0⟩ := by
  decide

/-- Claim C6, evaluated on the source: `convert_RGB888_to_RGB565` applied to
`RGB(255, 255, 255)` returns `0xFFDF`, which differs from `0xFFFF` in bit 5. -/
theorem convert_white_value :
    convert_RGB888_to_RGB565 ⟨255, 255, 255⟩ = 0xFFDF ∧
    convert_RGB888_to_RGB565 ⟨255, 255, 255⟩ ≠ 0xFFFF ∧
    (convert_RGB888_to_RGB565 ⟨255, 255, 255⟩).testBit 5 = false := by
  decide

/-- Claim C7: `convert_RGB888_to_RGB565` applied to `RGB(255, 0, 0)` returns `0xF800`:
bits 11 to 15 are set and every other bit is clear. -/
theorem convert_red_value :
    convert_RGB888_to_RGB565 ⟨255, 0, 0⟩ = 0xF800 ∧
    ∀ i : Fin 32, (convert_RGB888_to_RGB565 ⟨255, 0, 0⟩).testBit i.val
      = decide (11 ≤ i.val ∧ i.val ≤ 15) := by
  decide


/-! ## Hiding -/

/-- Claim C8 as stated fails when the background colour is not reproduced exactly by
the packing: a `Pixel` at (0, 0) with background `RGB(0, 0, 1)`, drawn and hidden on a
surface whose cells all hold `RGB(0, 0, 1)`, leaves cell (0, 0) holding black. -/
theorem Element.draw_hide_exact_bg_counterexample :
    Element.draw 0 (.pixel ⟨⟨⟨248, 0, 0⟩, ⟨0, 0, 1⟩⟩, ⟨0, 0⟩⟩) = some [⟨0, 0, 0xF800⟩] ∧
    (Element.hide 0 (.pixel ⟨⟨⟨248, 0, 0⟩, ⟨0, 0, 1⟩⟩, ⟨0, 0⟩⟩)).1 = some [⟨0, 0, 0⟩] ∧
    inSurface 0 0 ∧
    (∀ x y, inSurface x y → uniform (RGB.toVec3b ⟨0, 0, 1⟩) x y = RGB.toVec3b ⟨0, 0, 1⟩) ∧
    lcd_run [⟨0, 0, 0⟩] (lcd_run [⟨0, 0, 0xF800⟩] (uniform (RGB.toVec3b ⟨0, 0, 1⟩))) 0 0
      = ⟨0, 0, 0⟩ ∧
    lcd_run [⟨0, 0, 0⟩] (lcd_run [⟨0, 0, 0xF800⟩] (uniform (RGB.toVec3b ⟨0, 0, 1⟩))) 0 0
      ≠ RGB.toVec3b ⟨0, 0, 1⟩ :=
  ⟨by decide, by decide, by decide, fun _ _ _ => rfl, by decide, by decide⟩

/-- Claim C8, amended: let `e` be a Pixel, Line, Circle or Character with background
`bg`, and let every cell of the surface hold the value that `lcd_put_pixel` stores for
the packed `bg`, with all of `e`'s pixels in bounds.  Then `e.draw()` followed by
`e.hide()` terminates and leaves every cell of the surface holding that value again;
the canvas is the same as before. -/
theorem Element.draw_hide_restores (e : Element) (fuel : Nat) (g : Canvas)
    (hfuel : e.fuelBound ≤ fuel)
    (hbg : ∀ x y, inSurface x y →
      g x y = l_rgb_888 (convert_RGB888_to_RGB565 e.toGraphicElement.bg_color))
    (hin : ∀ tr ∈ e.draw fuel, ∀ c ∈ tr, inSurface c.t_x c.t_y) :
    ∃ tr tr', e.draw fuel = some tr ∧ (e.hide fuel).1 = some tr' ∧
      (∀ x y, inSurface x y → lcd_run tr' (lcd_run tr g) x y
        = l_rgb_888 (convert_RGB888_to_RGB565 e.toGraphicElement.bg_color)) ∧
      lcd_run tr' (lcd_run tr g) = g := by
  obtain ⟨tr, htr⟩ := Element.draw_total e fuel hfuel
  have hhide : (e.hide fuel).1 = some (tr.map
      (PutPixel.recolor (convert_RGB888_to_RGB565 e.toGraphicElement.bg_color))) := by
    simp only [Element.hide, Element.draw_recolor, htr]
    rfl
  have hin' : ∀ c ∈ tr.map
      (PutPixel.recolor (convert_RGB888_to_RGB565 e.toGraphicElement.bg_color)),
      inSurface c.t_x c.t_y := by
    intro c hc
    obtain ⟨c', hc', rfl⟩ := List.mem_map.mp hc
    exact hin tr htr c' hc'
  have hcell : ∀ x y, lcd_run (tr.map
      (PutPixel.recolor (convert_RGB888_to_RGB565 e.toGraphicElement.bg_color)))
      (lcd_run tr g) x y = g x y := by
    intro x y
    by_cases hw : written tr x y
    · rw [lcd_run_written (convert_RGB888_to_RGB565 e.toGraphicElement.bg_color) _ _ x y
        hin' (by simp [PutPixel.recolor]) ((written_map_recolor _ tr x y).mpr hw)]
      obtain ⟨c, hc, hx, hy⟩ := hw
      have := hin tr htr c hc
      rw [hx, hy] at this
      exact (hbg x y this).symm
    · rw [lcd_run_not_written _ _ x y hin'
          (fun h => hw ((written_map_recolor _ tr x y).mp h)),
        lcd_run_not_written _ _ x y (hin tr htr) hw]
  refine ⟨tr, _, htr, hhide, fun x y hxy => ?_, ?_⟩
  · rw [hcell x y]; exact hbg x y hxy
  · funext x y; exact hcell x y

/-- A circle of radius 3 around (100, 100), drawn and hidden on a surface that holds
its stored background everywhere, leaves that surface as it was. -/
theorem Element.draw_hide_restores_witness :
    (Element.circle small_circle).fuelBound ≤ 4 ∧
    (∀ x y, inSurface x y →
      uniform (l_rgb_888 (convert_RGB888_to_RGB565
        (Element.circle small_circle).toGraphicElement.bg_color)) x y
      = l_rgb_888 (convert_RGB888_to_RGB565
        (Element.circle small_circle).toGraphicElement.bg_color)) ∧
    (∀ tr ∈ Element.draw 4 (.circle small_circle), ∀ c ∈ tr, inSurface c.t_x c.t_y) ∧
    ∃ tr tr', Element.draw 4 (.circle small_circle) = some tr ∧
      (Element.hide 4 (.circle small_circle)).1 = some tr' ∧
      (∀ x y, inSurface x y →
        lcd_run tr' (lcd_run tr (uniform (l_rgb_888 (convert_RGB888_to_RGB565
          (Element.circle small_circle).toGraphicElement.bg_color)))) x y
        = l_rgb_888 (convert_RGB888_to_RGB565
          (Element.circle small_circle).toGraphicElement.bg_color)) ∧
      lcd_run tr' (lcd_run tr (uniform (l_rgb_888 (convert_RGB888_to_RGB565
          (Element.circle small_circle).toGraphicElement.bg_color))))
        = uniform (l_rgb_888 (convert_RGB888_to_RGB565
          (Element.circle small_circle).toGraphicElement.bg_color)) :=
  ⟨by decide, fun _ _ _ => rfl, by decide,
    Element.draw_hide_restores (.circle small_circle) 4 _ (by decide) (fun _ _ _ => rfl)
      (by decide)⟩

/-- Claim C9: for a Pixel, Line, Circle or Character with colours `fg` and `bg`,
`hide()` makes the calls of `draw()` with the same coordinates in the same order, each
with the packed `bg` as colour where `draw()` uses the packed `fg`, and leaves the
element, in particular `fg_color` and `bg_color`, as it was before the call. -/
theorem Element.hide_repaints_in_bg (e : Element) (fuel : Nat) :
    (e.hide fuel).1 = (e.draw fuel).map
        (List.map (PutPixel.recolor (convert_RGB888_to_RGB565 e.toGraphicElement.bg_color))) ∧
    (∀ tr ∈ e.draw fuel, ∀ c ∈ tr,
        c.t_rgb_565 = convert_RGB888_to_RGB565 e.toGraphicElement.fg_color) ∧
    (e.hide fuel).2 = e ∧
    (e.hide fuel).2.toGraphicElement.fg_color = e.toGraphicElement.fg_color ∧
    (e.hide fuel).2.toGraphicElement.bg_color = e.toGraphicElement.bg_color := by
  have h2 : (e.hide fuel).2 = e := Element.swap_swap e
  refine ⟨Element.draw_recolor e fuel, ?_, h2, by rw [h2], by rw [h2]⟩
  have h := Element.draw_recolor e.swap_fg_bg_color fuel
  rw [Element.swap_swap] at h
  have hfg : e.swap_fg_bg_color.toGraphicElement.bg_color = e.toGraphicElement.fg_color := by
    cases e <;> rfl
  rw [hfg] at h
  intro tr htr
  rw [Option.mem_def] at htr
  cases hsw : e.swap_fg_bg_color.draw fuel with
  | none => rw [hsw, htr] at h; simp at h
  | some tr0 =>
    rw [hsw, htr] at h
    simp only [Option.map_some', Option.some.injEq] at h
    apply mem_of_eq_map_recolor
    rw [h, List.map_map]
    congr 1

/-! ## Character: footprint -/

/-- Claim C15: for every centre `c` and radius `r ≥ 0`, the coordinates written by
`Circle(c, r).draw()` contain the four axis points `(c.x + r, c.y)`, `(c.x - r, c.y)`,
`(c.x, c.y + r)` and `(c.x, c.y - r)`; for `r = 0` the loop body never runs: the calls
are the four calls before the loop, and the written set is exactly `{c}`. -/
theorem Circle.draw_axis_points (e : Circle) (fuel : Nat) (hr : 0 ≤ e.radius)
    (hfuel : e.radius + 1 ≤ (fuel : Int)) :
    ∃ tr, e.draw fuel = some tr ∧
      written tr (e.center.x + e.radius) e.center.y ∧
      written tr (e.center.x - e.radius) e.center.y ∧
      written tr e.center.x (e.center.y + e.radius) ∧
      written tr e.center.x (e.center.y - e.radius) ∧
      (e.radius = 0 →
        tr = Circle.axis e.center.x e.center.y e.radius (convert_RGB888_to_RGB565 e.fg_color) ∧
        ∀ x y, written tr x y ↔ x = e.center.x ∧ y = e.center.y) := by
  obtain ⟨rest, hrest, -⟩ := Circle.loop_symClosed e.center.x e.center.y
    (convert_RGB888_to_RGB565 e.fg_color) fuel 0 e.radius (1 - e.radius) 0 (-2 * e.radius)
    (by omega) (by omega)
  refine ⟨_, by rw [Circle.draw_eq_axis_append, hrest]; rfl, ?_, ?_, ?_, ?_, ?_⟩
  · exact (written_append _ _ _ _).mpr (Or.inl ⟨⟨_, _, convert_RGB888_to_RGB565 e.fg_color⟩, by simp [Circle.axis], rfl, rfl⟩)
  · exact (written_append _ _ _ _).mpr (Or.inl ⟨⟨_, _, convert_RGB888_to_RGB565 e.fg_color⟩, by simp [Circle.axis], rfl, rfl⟩)
  · exact (written_append _ _ _ _).mpr (Or.inl ⟨⟨_, _, convert_RGB888_to_RGB565 e.fg_color⟩, by simp [Circle.axis], rfl, rfl⟩)
  · exact (written_append _ _ _ _).mpr (Or.inl ⟨⟨_, _, convert_RGB888_to_RGB565 e.fg_color⟩, by simp [Circle.axis], rfl, rfl⟩)
  · intro h0
    obtain ⟨k, rfl⟩ : ∃ k, fuel = k + 1 := ⟨fuel - 1, by omega⟩
    have hnil : rest = [] := by
      rw [h0] at hrest
      simp [Circle.loop] at hrest
      exact hrest
    subst hnil
    refine ⟨by simp, fun x y => ?_⟩
    simp only [List.append_nil, written, Circle.axis, h0, List.mem_cons, List.mem_singleton,
      List.not_mem_nil, or_false, exists_eq_or_imp, exists_eq_left]
    omega

/-- A circle of radius 3 around (100, 100) writes its four axis points. -/
theorem Circle.draw_axis_points_witness :
    0 ≤ small_circle.radius ∧ small_circle.radius + 1 ≤ ((4 : Nat) : Int) ∧
    ∃ tr, small_circle.draw 4 = some tr ∧
      written tr (small_circle.center.x + small_circle.radius) small_circle.center.y ∧
      written tr (small_circle.center.x - small_circle.radius) small_circle.center.y ∧
      written tr small_circle.center.x (small_circle.center.y + small_circle.radius) ∧
      written tr small_circle.center.x (small_circle.center.y - small_circle.radius) ∧
      (small_circle.radius = 0 →
        tr = Circle.axis small_circle.center.x small_circle.center.y small_circle.radius
          (convert_RGB888_to_RGB565 small_circle.fg_color) ∧
        ∀ x y, written tr x y ↔ x = small_circle.center.x ∧ y = small_circle.center.y) :=
  ⟨by decide, by decide, Circle.draw_axis_points small_circle 4 (by decide) (by decide)⟩

/-- Claim C19: for every centre `c` and radius `r ≥ 0`, every call
`(c.x + dx, c.y + dy)` made by `Circle(c, r).draw()` satisfies
`|dx*dx + dy*dy - r*r| ≤ r`, and lies in the square
`[c.x - r, c.x + r] × [c.y - r, c.y + r]`. -/
theorem Circle.draw_near_circle (e : Circle) (fuel : Nat) (hr : 0 ≤ e.radius)
    (hfuel : e.radius + 1 ≤ (fuel : Int)) :
    ∃ tr, e.draw fuel = some tr ∧ ∀ c ∈ tr,
      c_abs ((c.t_x - e.center.x) * (c.t_x - e.center.x)
        + (c.t_y - e.center.y) * (c.t_y - e.center.y) - e.radius * e.radius) ≤ e.radius ∧
      e.center.x - e.radius ≤ c.t_x ∧ c.t_x ≤ e.center.x + e.radius ∧
      e.center.y - e.radius ≤ c.t_y ∧ c.t_y ≤ e.center.y + e.radius := by
  obtain ⟨rest, hrest, -⟩ := Circle.loop_symClosed e.center.x e.center.y
    (convert_RGB888_to_RGB565 e.fg_color) fuel 0 e.radius (1 - e.radius) 0 (-2 * e.radius)
    (by omega) (by omega)
  have hloop := Circle.loop_nearCircle e.center.x e.center.y e.radius
    (convert_RGB888_to_RGB565 e.fg_color) fuel 0 e.radius (1 - e.radius) 0 (-2 * e.radius) 0
    (le_refl _) (le_refl _) (by ring) (by ring) (by ring) (by ring) (by omega) hr rest hrest
  refine ⟨_, by rw [Circle.draw_eq_axis_append, hrest]; rfl, fun c hc => ?_⟩
  have hnear : nearCircle e.center.x e.center.y e.radius c := by
    rcases List.mem_append.mp hc with h | h
    · exact nearCircle_axis _ _ _ _ hr c h
    · exact hloop c h
  exact ⟨hnear, nearCircle_in_square hr hnear⟩

/-- Every call of a circle of radius 3 lies within 3 of the circle equation. -/
theorem Circle.draw_near_circle_witness :
    0 ≤ small_circle.radius ∧ small_circle.radius + 1 ≤ ((4 : Nat) : Int) ∧
    ∃ tr, small_circle.draw 4 = some tr ∧ ∀ c ∈ tr,
      c_abs ((c.t_x - small_circle.center.x) * (c.t_x - small_circle.center.x)
        + (c.t_y - small_circle.center.y) * (c.t_y - small_circle.center.y)
        - small_circle.radius * small_circle.radius) ≤ small_circle.radius ∧
      small_circle.center.x - small_circle.radius ≤ c.t_x ∧
      c.t_x ≤ small_circle.center.x + small_circle.radius ∧
      small_circle.center.y - small_circle.radius ≤ c.t_y ∧
      c.t_y ≤ small_circle.center.y + small_circle.radius :=
  ⟨by decide, by decide, Circle.draw_near_circle small_circle 4 (by decide) (by decide)⟩

/-! ## Line: orientation, distance from the segment, bounding box -/

/-- Claim C14 as stated fails: `Line((0,0), (2,1)).draw()` writes (0,0), (1,1), (2,1),
whereas `Line((2,1), (0,0)).draw()` writes (2,1), (1,0), (0,0); the coordinate (1,1) is
written by the first and not by the second. -/
theorem Line.draw_reversed_counterexample :
    Line.draw 3 ⟨⟨⟨0, 0, 0⟩, ⟨0, 0, 0⟩⟩, ⟨0, 0⟩, ⟨2, 1⟩⟩
      = some [⟨0, 0, 0⟩, ⟨1, 1, 0⟩, ⟨2, 1, 0⟩] ∧
    Line.draw 3 ⟨⟨⟨0, 0, 0⟩, ⟨0, 0, 0⟩⟩, ⟨2, 1⟩, ⟨0, 0⟩⟩
      = some [⟨2, 1, 0⟩, ⟨1, 0, 0⟩, ⟨0, 0, 0⟩] ∧
    written [⟨0, 0, 0⟩, ⟨1, 1, 0⟩, ⟨2, 1, 0⟩] 1 1 ∧
    ¬ written [⟨2, 1, 0⟩, ⟨1, 0, 0⟩, ⟨0, 0, 0⟩] 1 1 := by
  decide

/-- Claim C14, amended: for all points `p0` and `p1` such that no coordinate lies
exactly half a pixel from the ideal segment (no `(x, y)` with
`2 * |Δx * (y - p0.y) - Δy * (x - p0.x)| = max(|Δx|, |Δy|) > 0`), `Line(p0, p1).draw()`
and `Line(p1, p0).draw()` terminate and write the same set of coordinates. -/
theorem Line.draw_symmetric_of_no_halfway (e : Line) (fuel : Nat)
    (hfuel : max (c_abs (e.pos2.x - e.pos1.x)) (c_abs (e.pos2.y - e.pos1.y)) + 1 ≤ (fuel : Int))
    (hno : ∀ x y, ¬ e.halfway x y) :
    ∃ tr tr', e.draw fuel = some tr ∧ e.reversed.draw fuel = some tr' ∧
      ∀ x y, written tr x y ↔ written tr' x y := by
  have hs := Line.steps_cast e
  have hf : e.steps + 1 ≤ fuel := by omega
  obtain ⟨tr, tr', htr, htr', h⟩ := Line.written_reversed e fuel hf hno
  obtain ⟨tr2, tr3, htr2, htr3, h'⟩ := Line.written_reversed e.reversed fuel
    (by rw [Line.steps_reversed]; exact hf)
    (fun x y hh => hno x y ((Line.halfway_reversed e x y).mp hh))
  rw [Line.reversed_reversed] at htr3
  rw [htr'] at htr2
  rw [htr] at htr3
  cases htr2
  cases htr3
  exact ⟨tr, tr', htr, htr', fun x y => ⟨h x y, h' x y⟩⟩

/-- The line from (0, 0) to (3, 1) and its reverse write the same coordinates. -/
theorem Line.draw_symmetric_of_no_halfway_witness :
    max (c_abs (odd_line.pos2.x - odd_line.pos1.x))
        (c_abs (odd_line.pos2.y - odd_line.pos1.y)) + 1 ≤ ((4 : Nat) : Int) ∧
    (∀ x y, ¬ odd_line.halfway x y) ∧
    ∃ tr tr', odd_line.draw 4 = some tr ∧ odd_line.reversed.draw 4 = some tr' ∧
      ∀ x y, written tr x y ↔ written tr' x y :=
  ⟨by decide,
    fun x y h => by
      simp only [Line.halfway, odd_line, c_abs] at h
      obtain ⟨-, h⟩ := h
      split at h <;> simp at h <;> omega,
    Line.draw_symmetric_of_no_halfway odd_line 4 (by decide)
      (fun x y h => by
        simp only [Line.halfway, odd_line, c_abs] at h
        obtain ⟨-, h⟩ := h
        split at h <;> simp at h <;> omega)⟩

/-- Claim C18: every call `(x, y)` made by `Line(p0, p1).draw()` lies within half a pixel
of the ideal segment measured along the minor axis: with `Δx = p1.x - p0.x` and
`Δy = p1.y - p0.y`, `2 * |Δx * (y - p0.y) - Δy * (x - p0.x)| ≤ max(|Δx|, |Δy|)`. -/
theorem Line.draw_near_ideal (e : Line) (fuel : Nat)
    (hfuel : max (c_abs (e.pos2.x - e.pos1.x)) (c_abs (e.pos2.y - e.pos1.y)) + 1 ≤ (fuel : Int)) :
    ∃ tr, e.draw fuel = some tr ∧ ∀ c ∈ tr,
      2 * c_abs ((e.pos2.x - e.pos1.x) * (c.t_y - e.pos1.y)
          - (e.pos2.y - e.pos1.y) * (c.t_x - e.pos1.x))
        ≤ max (c_abs (e.pos2.x - e.pos1.x)) (c_abs (e.pos2.y - e.pos1.y)) := by
  have hs := Line.steps_cast e
  obtain ⟨tr, htr, hp, -, -⟩ := Line.draw_track e fuel (by omega)
  exact ⟨tr, htr, fun c hc => (hp c hc).1⟩

/-- Every call of the line of `main` lies within half a pixel of its ideal segment. -/
theorem Line.draw_near_ideal_witness :
    max (c_abs (main_line.pos2.x - main_line.pos1.x))
        (c_abs (main_line.pos2.y - main_line.pos1.y)) + 1 ≤ ((101 : Nat) : Int) ∧
    ∃ tr, main_line.draw 101 = some tr ∧ ∀ c ∈ tr,
      2 * c_abs ((main_line.pos2.x - main_line.pos1.x) * (c.t_y - main_line.pos1.y)
          - (main_line.pos2.y - main_line.pos1.y) * (c.t_x - main_line.pos1.x))
        ≤ max (c_abs (main_line.pos2.x - main_line.pos1.x))
            (c_abs (main_line.pos2.y - main_line.pos1.y)) :=
  ⟨by decide, Line.draw_near_ideal main_line 101 (by decide)⟩

/-- Claim C20: every call `(x, y)` made by `Line(p0, p1).draw()` lies in the bounding
rectangle of the end points; hence, if both end points lie inside the surface
`[0, 320) × [0, 240)`, every call of the line is inside the surface. -/
theorem Line.draw_in_bounding_box (e : Line) (fuel : Nat)
    (hfuel : max (c_abs (e.pos2.x - e.pos1.x)) (c_abs (e.pos2.y - e.pos1.y)) + 1 ≤ (fuel : Int)) :
    ∃ tr, e.draw fuel = some tr ∧
      (∀ c ∈ tr, min e.pos1.x e.pos2.x ≤ c.t_x ∧ c.t_x ≤ max e.pos1.x e.pos2.x ∧
        min e.pos1.y e.pos2.y ≤ c.t_y ∧ c.t_y ≤ max e.pos1.y e.pos2.y) ∧
      (inSurface e.pos1.x e.pos1.y → inSurface e.pos2.x e.pos2.y →
        ∀ c ∈ tr, inSurface c.t_x c.t_y) := by
  have hs := Line.steps_cast e
  obtain ⟨tr, htr, hp, -, -⟩ := Line.draw_track e fuel (by omega)
  refine ⟨tr, htr, fun c hc => (hp c hc).2, fun h1 h2 c hc => ?_⟩
  have hb := (hp c hc).2
  simp only [Line.inBox] at hb
  simp only [inSurface] at h1 h2 ⊢
  omega

/-- The line of `main` stays in the rectangle [200, 300] × [80, 150], inside the surface. -/
theorem Line.draw_in_bounding_box_witness :
    max (c_abs (main_line.pos2.x - main_line.pos1.x))
        (c_abs (main_line.pos2.y - main_line.pos1.y)) + 1 ≤ ((101 : Nat) : Int) ∧
    ∃ tr, main_line.draw 101 = some tr ∧
      (∀ c ∈ tr, min main_line.pos1.x main_line.pos2.x ≤ c.t_x ∧
        c.t_x ≤ max main_line.pos1.x main_line.pos2.x ∧
        min main_line.pos1.y main_line.pos2.y ≤ c.t_y ∧
        c.t_y ≤ max main_line.pos1.y main_line.pos2.y) ∧
      (inSurface main_line.pos1.x main_line.pos1.y →
        inSurface main_line.pos2.x main_line.pos2.y →
        ∀ c ∈ tr, inSurface c.t_x c.t_y) :=
  ⟨by decide, Line.draw_in_bounding_box main_line 101 (by decide)⟩

/-! ## Text -/

/-- Claim C11 as stated fails where the sum leaves the range of `int32_t`: in
`Text<uint8_t, 8, 8>("AB", Point2D(2147483647, 0), fg, bg)` glyph 1 has the position
`(-2147483641, 0)`, not `(2147483647 + 1*8, 0)`. -/
theorem Text.ctor_layout_counterexample :
    (Text.ctor 8 8 8 blank_table_font [65, 66] ⟨2147483647, 0⟩ ⟨255, 255, 255⟩
        ⟨0, 0, 0⟩).chars.map (fun g => (g.character, g.pos))
      = [(65, ⟨2147483647, 0⟩), (66, ⟨-2147483641, 0⟩)] ∧
    (⟨-2147483641, 0⟩ : Point2D) ≠ ⟨2147483647 + 1 * 8, 0⟩ := by
  decide

/-- Claim C11, amended: `Text(s, origin, fg, bg)` owns exactly `length(s)` glyphs, and for
every index `k < length(s)` glyph `k` has the character `s[k]` and the position
`(origin.x + k*width, origin.y)` with the sum reduced modulo `2^32` into the range of
`int32_t`; the position is `(origin.x + k*width, origin.y)` itself whenever that sum is
a value of `int32_t`. -/
theorem Text.ctor_layout (type_bits width height : Nat) (font0 : Font) (str : List Int)
    (pos : Point2D) (fg bg : RGB) :
    (Text.ctor type_bits width height font0 str pos fg bg).len = str.length ∧
    ∀ (k : Nat) (ch : Int), str[k]? = some ch →
      ∃ g, (Text.ctor type_bits width height font0 str pos fg bg).chars[k]? = some g ∧
        g.character = ch ∧ g.pos = ⟨toInt32 (pos.x + k * width), pos.y⟩ ∧
        (-2147483648 ≤ pos.x + k * width → pos.x + k * width < 2147483648 →
          g.pos = ⟨pos.x + k * width, pos.y⟩) := by
  refine ⟨Text.initChars_length type_bits width height font0 pos fg bg str 0, ?_⟩
  intro k ch hk
  simp only [Text.ctor, Text.initChars_getElem, hk, Option.map_some', Nat.zero_add]
  refine ⟨_, rfl, rfl, ?_, ?_⟩
  · simp only [Character.assign, Character.ctor]
    rw [toInt32_wrap]
  · intro h1 h2
    simp only [Character.assign, Character.ctor]
    rw [toInt32_sum pos.x _ h1 h2]

/-- The text of `main`, "Seznam.cz" at (10, 180) with glyphs 32 columns wide: glyph 1
is the character `e` at (42, 180). -/
theorem Text.ctor_layout_witness :
    ∃ g, (Text.ctor 32 32 53 blank_table_font [83, 101, 122, 110, 97, 109, 46, 99, 122]
        ⟨10, 180⟩ ⟨255, 255, 255⟩ ⟨0, 0, 0⟩).chars[1]? = some g ∧
      g.character = 101 ∧ g.pos = ⟨42, 180⟩ := by
  obtain ⟨g, hg, hch, -, hpos⟩ :=
    (Text.ctor_layout 32 32 53 blank_table_font [83, 101, 122, 110, 97, 109, 46, 99, 122]
      ⟨10, 180⟩ ⟨255, 255, 255⟩ ⟨0, 0, 0⟩).2 1 101 rfl
  exact ⟨g, hg, hch, hpos (by decide) (by decide)⟩

/-- Claim C12, evaluated on the source: every glyph owned by `Text(s, origin, fg, bg)` has
the colours of the default constructor `Character()`, white on black, whatever `fg` and
`bg` are, because `Character::operator=` does not copy the colours; for the text "A" with
`fg = RGB(255, 0, 0)` and `bg = RGB(0, 0, 255)` the glyph has neither colour. -/
theorem Text.glyphs_keep_default_colours (type_bits width height : Nat) (font0 : Font)
    (str : List Int) (pos : Point2D) (fg bg : RGB) :
    (∀ g ∈ (Text.ctor type_bits width height font0 str pos fg bg).chars,
      g.fg_color = ⟨255, 255, 255⟩ ∧ g.bg_color = ⟨0, 0, 0⟩) ∧
    (Text.ctor 8 8 8 font0 [65] ⟨0, 0⟩ ⟨255, 0, 0⟩ ⟨0, 0, 255⟩).chars.map
        (fun g => (g.fg_color, g.bg_color))
      = [(⟨255, 255, 255⟩, ⟨0, 0, 0⟩)] ∧
    (⟨255, 255, 255⟩ : RGB) ≠ ⟨255, 0, 0⟩ ∧ (⟨0, 0, 0⟩ : RGB) ≠ ⟨0, 0, 255⟩ :=
  ⟨Text.initChars_colours type_bits width height font0 pos fg bg str 0, rfl, by decide,
    by decide⟩

/-- Claim C16: for the empty string, `Text("", origin, fg, bg)` owns zero glyphs, and its
`draw()` and `hide()` make no call of `lcd_put_pixel`: the canvas after either call is the
canvas before. -/
theorem Text.empty_string_no_write (type_bits width height : Nat) (font0 : Font)
    (pos : Point2D) (fg bg : RGB) (g_canvas : Canvas) :
    (Text.ctor type_bits width height font0 [] pos fg bg).len = 0 ∧
    (Text.ctor type_bits width height font0 [] pos fg bg).chars = [] ∧
    (Text.ctor type_bits width height font0 [] pos fg bg).draw = [] ∧
    (Text.ctor type_bits width height font0 [] pos fg bg).hide.1 = [] ∧
    lcd_run (Text.ctor type_bits width height font0 [] pos fg bg).draw g_canvas = g_canvas ∧
    lcd_run (Text.ctor type_bits width height font0 [] pos fg bg).hide.1 g_canvas
      = g_canvas :=
  ⟨rfl, rfl, rfl, rfl, rfl, rfl⟩

/-! ## Character: table index -/

/-- Claim C17, evaluated on the source: the character code 200, stored in the member
`character` of type `char`, is the value -56, and `Character::draw` uses -56 as the first
index of the font table, outside `0..255`; with a font that is blank inside the table the
glyph still draws, from what lies before the table. -/
theorem Character.draw_index_outside_table :
    toChar 200 = -56 ∧
    (Character.ctor 8 8 1 blank_table_font ⟨0, 0⟩ (toChar 200) ⟨255, 255, 255⟩
        ⟨0, 0, 0⟩).fontIndex = -56 ∧
    ¬ (0 ≤ (Character.ctor 8 8 1 blank_table_font ⟨0, 0⟩ (toChar 200) ⟨255, 255, 255⟩
        ⟨0, 0, 0⟩).fontIndex ∧
      (Character.ctor 8 8 1 blank_table_font ⟨0, 0⟩ (toChar 200) ⟨255, 255, 255⟩
        ⟨0, 0, 0⟩).fontIndex < 256) ∧
    (Character.ctor 8 8 1 blank_table_font ⟨0, 0⟩ (toChar 200) ⟨255, 255, 255⟩
        ⟨0, 0, 0⟩).draw.length = 8 := by
  decide

/-! ## Pixel writes outside the surface -/

/-- Claim C13 as stated fails: `lcd_put_pixel(320, 0, 0xFFFF)` addresses a coordinate
outside `[0, 320) × [0, 240)`, is not rejected, and does not leave the surface unchanged:
its store goes to offset 320 of the buffer, which is the cell (0, 1) of the surface. -/
theorem lcd_put_pixel_unchecked_counterexample :
    ¬ inSurface 320 0 ∧ inSurface 0 1 ∧
    cellOffset 320 0 = cellOffset 0 1 ∧
    uniform ⟨0, 0, 0⟩ 0 1 = ⟨0, 0, 0⟩ ∧
    lcd_put_pixel (uniform ⟨0, 0, 0⟩) 320 0 0xFFFF 0 1 = ⟨248, 252, 248⟩ := by
  decide

/-- Claim C13, amended: `lcd_put_pixel` makes no bounds check and has no failure result.
For a coordinate inside `[0, 320) × [0, 240)` it stores the unpacked colour in the cell
of that coordinate and leaves every other cell of the surface unchanged.  For a
coordinate outside, the store is made all the same, at the offset `y*320 + x` of the
row-major buffer: when that offset lies in the buffer, the cell of the surface at column
`(y*320 + x) mod 320` and row `(y*320 + x) div 320` is overwritten. -/
theorem lcd_put_pixel_writes_unconditionally (g_canvas : Canvas) (t_x t_y : Int)
    (t_rgb_565 : Nat) :
    (inSurface t_x t_y →
      lcd_put_pixel g_canvas t_x t_y t_rgb_565 t_x t_y = l_rgb_888 t_rgb_565 ∧
      ∀ x y, inSurface x y → ¬ (x = t_x ∧ y = t_y) →
        lcd_put_pixel g_canvas t_x t_y t_rgb_565 x y = g_canvas x y) ∧
    (¬ inSurface t_x t_y → 0 ≤ cellOffset t_x t_y →
      cellOffset t_x t_y < LCD_WIDTH * LCD_HEIGHT →
      inSurface (cellOffset t_x t_y % LCD_WIDTH) (cellOffset t_x t_y / LCD_WIDTH) ∧
      (cellOffset t_x t_y % LCD_WIDTH ≠ t_x ∨ cellOffset t_x t_y / LCD_WIDTH ≠ t_y) ∧
      lcd_put_pixel g_canvas t_x t_y t_rgb_565
          (cellOffset t_x t_y % LCD_WIDTH) (cellOffset t_x t_y / LCD_WIDTH)
        = l_rgb_888 t_rgb_565) := by
  constructor
  · intro ht
    refine ⟨?_, fun x y _ hne => ?_⟩
    · rw [lcd_put_pixel_in_surface _ _ _ _ ht, if_pos ⟨rfl, rfl⟩]
    · rw [lcd_put_pixel_in_surface _ _ _ _ ht, if_neg hne]
  · intro hout h0 h1
    have hs : inSurface (cellOffset t_x t_y % LCD_WIDTH) (cellOffset t_x t_y / LCD_WIDTH) := by
      simp only [inSurface, cellOffset, LCD_WIDTH, LCD_HEIGHT] at *
      omega
    have ho : cellOffset (cellOffset t_x t_y % LCD_WIDTH) (cellOffset t_x t_y / LCD_WIDTH)
        = cellOffset t_x t_y := by
      simp only [cellOffset, LCD_WIDTH]
      omega
    refine ⟨hs, ?_, ?_⟩
    · by_contra hc
      have hx : cellOffset t_x t_y % LCD_WIDTH = t_x := by
        by_contra hx; exact hc (Or.inl hx)
      have hy : cellOffset t_x t_y / LCD_WIDTH = t_y := by
        by_contra hy; exact hc (Or.inr hy)
      rw [hx, hy] at hs
      exact hout hs
    · unfold lcd_put_pixel
      rw [if_pos ⟨hs, ho⟩]

/-- The calls `lcd_put_pixel(5, 7, 0xFFFF)`, inside the surface, and
`lcd_put_pixel(320, 0, 0xFFFF)`, outside it, on a black canvas. -/
theorem lcd_put_pixel_writes_unconditionally_witness :
    (lcd_put_pixel (uniform ⟨0, 0, 0⟩) 5 7 0xFFFF 5 7 = l_rgb_888 0xFFFF ∧
      ∀ x y, inSurface x y → ¬ (x = 5 ∧ y = 7) →
        lcd_put_pixel (uniform ⟨0, 0, 0⟩) 5 7 0xFFFF x y = uniform ⟨0, 0, 0⟩ x y) ∧
    (inSurface (cellOffset 320 0 % LCD_WIDTH) (cellOffset 320 0 / LCD_WIDTH) ∧
      (cellOffset 320 0 % LCD_WIDTH ≠ 320 ∨ cellOffset 320 0 / LCD_WIDTH ≠ 0) ∧
      lcd_put_pixel (uniform ⟨0, 0, 0⟩) 320 0 0xFFFF
          (cellOffset 320 0 % LCD_WIDTH) (cellOffset 320 0 / LCD_WIDTH)
        = l_rgb_888 0xFFFF) :=
  ⟨(lcd_put_pixel_writes_unconditionally (uniform ⟨0, 0, 0⟩) 5 7 0xFFFF).1 (by decide),
    (lcd_put_pixel_writes_unconditionally (uniform ⟨0, 0, 0⟩) 320 0 0xFFFF).2
      (by decide) (by decide) (by decide)⟩

end LcdSim
